import Mathlib

/-!
Shallow embedding of the nunavut Python serialization support library
(`src/nunavut/lang/py/support/nunavut_support.py`).

Buffers of unsigned bytes (`numpy` arrays of `uint8` / `memoryview`s) are
modelled as `List Nat` whose entries are `< 256`; bit cursors are `Nat`.
Operations that raise `ValueError` in Python return `Except String _`.
Python `int` values that may be negative are modelled as `Int`.
-/

namespace NunavutSupport

/-- Little-endian valuation of a byte list: `bytesNat [b0, b1, ...] = b0 + 256*b1 + ...`.
This is the bit-stream content of a buffer read in little-endian bit order. -/
def bytesNat : List Nat → Nat
  | [] => 0
  | b :: l => b + 256 * bytesNat l

theorem bytesNat_nil : bytesNat [] = 0 := rfl

theorem bytesNat_cons (b : Nat) (l : List Nat) :
    bytesNat (b :: l) = b + 256 * bytesNat l := rfl

theorem bytesNat_lt (l : List Nat) (h : ∀ b ∈ l, b < 256) :
    bytesNat l < 256 ^ l.length := by
  induction l with
  | nil => simp [bytesNat]
  | cons b t ih =>
    have hb := h b (by simp)
    have ht := ih (fun x hx => h x (by simp [hx]))
    have h2 : 256 * (bytesNat t + 1) ≤ 256 * 256 ^ t.length := by
      exact Nat.mul_le_mul_left _ ht
    simp only [bytesNat, List.length_cons, pow_succ]
    omega

theorem bytesNat_getD (l : List Nat) (h : ∀ b ∈ l, b < 256) (i : Nat) :
    l.getD i 0 = bytesNat l / 256 ^ i % 256 := by
  induction l generalizing i with
  | nil => simp [bytesNat]
  | cons b t ih =>
    have hb := h b (by simp)
    cases i with
    | zero =>
      simp only [List.getD_cons_zero, bytesNat, pow_zero, Nat.div_one]
      rw [Nat.add_mul_mod_self_left, Nat.mod_eq_of_lt hb]
    | succ n =>
      have ht : ∀ x ∈ t, x < 256 := fun x hx => h x (by simp [hx])
      simp only [List.getD_cons_succ, bytesNat]
      rw [ih ht n]
      congr 1
      rw [pow_succ, mul_comm (256 ^ n) 256, ← Nat.div_div_eq_div_mul]
      congr 1
      rw [Nat.add_mul_div_left _ _ (by norm_num : 0 < 256), Nat.div_eq_of_lt hb,
        Nat.zero_add]

theorem bytesNat_set (l : List Nat) (i v : Nat) (h : i < l.length) :
    bytesNat (l.set i v) + l.getD i 0 * 256 ^ i = bytesNat l + v * 256 ^ i := by
  induction l generalizing i with
  | nil => simp at h
  | cons b t ih =>
    cases i with
    | zero => simp [bytesNat]; omega
    | succ n =>
      have hn : n < t.length := by simpa using h
      have h' := ih n hn
      have h2 := congrArg (fun x => 256 * x) h'
      simp only [Nat.mul_add] at h2
      simp only [List.set_cons_succ, bytesNat, List.getD_cons_succ, pow_succ]
      ring_nf
      ring_nf at h2
      omega

theorem length_set_eq (l : List Nat) (i v : Nat) : (l.set i v).length = l.length := by
  simp

theorem mem_set_lt (l : List Nat) (i v : Nat) (hl : ∀ b ∈ l, b < 256) (hv : v < 256) :
    ∀ b ∈ l.set i v, b < 256 := by
  intro b hb
  rcases List.mem_or_eq_of_mem_set hb with h | h
  · exact hl b h
  · omega

theorem bytesNat_eq_zero_iff (l : List Nat) : bytesNat l = 0 ↔ ∀ b ∈ l, b = 0 := by
  induction l with
  | nil => simp [bytesNat]
  | cons b t ih =>
    simp only [bytesNat, List.mem_cons]
    constructor
    · intro h
      have hb : b = 0 := by omega
      have ht : bytesNat t = 0 := by omega
      intro x hx
      rcases hx with h | h
      · omega
      · exact ih.mp ht x h
    · intro h
      have hb : b = 0 := h b (Or.inl rfl)
      have ht : bytesNat t = 0 := ih.mpr (fun x hx => h x (Or.inr hx))
      omega

theorem bytesNat_replicate_zero (n : Nat) : bytesNat (List.replicate n 0) = 0 := by
  rw [bytesNat_eq_zero_iff]
  intro b hb
  exact (List.eq_of_mem_replicate hb)

theorem bytesNat_append (l₁ l₂ : List Nat) :
    bytesNat (l₁ ++ l₂) = bytesNat l₁ + 256 ^ l₁.length * bytesNat l₂ := by
  induction l₁ with
  | nil => simp [bytesNat]
  | cons b t ih =>
    simp only [List.cons_append, bytesNat_cons]
    rw [ih]
    simp only [List.length_cons, pow_succ]
    ring

theorem bytesNat_take (l : List Nat) (h : ∀ b ∈ l, b < 256) (m : Nat) :
    bytesNat (l.take m) = bytesNat l % 256 ^ m := by
  induction l generalizing m with
  | nil => simp [bytesNat]
  | cons b t ih =>
    have hb := h b (by simp)
    have ht : ∀ x ∈ t, x < 256 := fun x hx => h x (by simp [hx])
    cases m with
    | zero => simp [bytesNat, Nat.mod_one]
    | succ n =>
      simp only [List.take_succ_cons, bytesNat, ih ht]
      rw [pow_succ, mul_comm (256 ^ n) 256, Nat.mod_mul,
        Nat.add_mul_mod_self_left, Nat.mod_eq_of_lt hb,
        Nat.add_mul_div_left _ _ (by norm_num : (0:Nat) < 256),
        Nat.div_eq_of_lt hb]
      simp

theorem bytesNat_drop (l : List Nat) (h : ∀ b ∈ l, b < 256) (m : Nat) :
    bytesNat (l.drop m) = bytesNat l / 256 ^ m := by
  induction l generalizing m with
  | nil => simp [bytesNat]
  | cons b t ih =>
    have hb := h b (by simp)
    have ht : ∀ x ∈ t, x < 256 := fun x hx => h x (by simp [hx])
    cases m with
    | zero => simp
    | succ n =>
      simp only [List.drop_succ_cons, bytesNat, ih ht]
      rw [pow_succ, mul_comm (256 ^ n) 256, ← Nat.div_div_eq_div_mul,
        Nat.add_mul_div_left _ _ (by norm_num : (0:Nat) < 256),
        Nat.div_eq_of_lt hb]
      simp

/-! ### Arithmetic helpers for bitwise reasoning -/

/-- Bitwise-or of disjoint parts is addition: the low part is below `2^k`
and the high part is a multiple of `2^k`. -/
theorem lor_of_lt {a : Nat} (k b : Nat) (h : a < 2 ^ k) :
    a ||| 2 ^ k * b = a + 2 ^ k * b := by
  induction k generalizing a b with
  | zero =>
    have : a = 0 := by omega
    subst this
    simp
  | succ n ih =>
    have ha2 : a / 2 < 2 ^ n := by
      rw [pow_succ] at h
      omega
    have hrec := ih (a := a / 2) b ha2
    have hdecomp : a = 2 * (a / 2) + a % 2 := by omega
    have hbit : a ||| 2 ^ (n + 1) * b = Nat.bit (a % 2 = 1) (a / 2 ||| 2 ^ n * b) := by
      have h1 : a = Nat.bit (a % 2 = 1) (a / 2) := by
        rcases Nat.mod_two_eq_zero_or_one a with hm | hm <;>
          simp [Nat.bit, hm] <;> omega
      have h2 : 2 ^ (n + 1) * b = Nat.bit false (2 ^ n * b) := by
        simp [Nat.bit, pow_succ]
        ring
      conv_lhs => rw [h1, h2]
      rw [Nat.lor_bit]
      simp
    rw [hbit, hrec]
    rcases Nat.mod_two_eq_zero_or_one a with hm | hm <;>
      simp [Nat.bit, hm, pow_succ] <;> ring_nf <;> omega

/-- `(a + c * b) % (c * m) = a + c * (b % m)` when `a < c`. -/
theorem add_mul_mod_mul {a c b m : Nat} (ha : a < c) :
    (a + c * b) % (c * m) = a + c * (b % m) := by
  rcases Nat.eq_zero_or_pos m with hm | hm
  · subst hm; simp
  have h1 : (a + c * b) % (c * m) = (a + c * b) % c + c * ((a + c * b) / c % m) :=
    Nat.mod_mul
  rw [h1, Nat.add_mul_mod_self_left, Nat.mod_eq_of_lt ha,
    Nat.add_mul_div_left _ _ (by omega : 0 < c), Nat.div_eq_of_lt ha, Nat.zero_add]

/-- `(a + c * b) / c = b` when `a < c`. -/
theorem add_mul_div_self {a c b : Nat} (ha : a < c) : (a + c * b) / c = b := by
  rw [Nat.add_mul_div_left _ _ (by omega : 0 < c), Nat.div_eq_of_lt ha, Nat.zero_add]

/-- The byte assembled by the unaligned fetch loop:
`(D >>> r) + 2^(8-r) * (D' % 2^r) = (U / 2^r) % 256` where `D, D'` are the two
adjacent bytes of `U` and `0 < r < 8`. -/
theorem unaligned_byte_eq (U r : Nat) (hr : r < 8) :
    U % 256 / 2 ^ r + 2 ^ (8 - r) * (U / 256 % 256 % 2 ^ r) = U / 2 ^ r % 256 := by
  have h8 : r + (8 - r) = 8 := by omega
  have hsplit : 2 ^ r * 2 ^ (8 - r) = 256 := by
    rw [← pow_add, h8]
    norm_num
  set D := U % 256 with hD
  set B := U / 256 with hB
  have hU : U = D + 256 * B := by omega
  have hDlt : D < 256 := Nat.mod_lt _ (by norm_num)
  have hBm : B % 256 % 2 ^ r = B % 2 ^ r :=
    Nat.mod_mod_of_dvd _ ⟨2 ^ (8 - r), hsplit.symm⟩
  rw [hBm]
  have hdiv : U / 2 ^ r = D / 2 ^ r + 2 ^ (8 - r) * B := by
    conv_lhs => rw [hU, ← hsplit]
    rw [show 2 ^ r * 2 ^ (8 - r) * B = 2 ^ r * (2 ^ (8 - r) * B) from by ring,
      Nat.add_mul_div_left _ _ (Nat.two_pow_pos r)]
  rw [hdiv]
  have hlow : D / 2 ^ r < 2 ^ (8 - r) :=
    Nat.div_lt_of_lt_mul (by rw [hsplit]; exact hDlt)
  have h256 : (256 : Nat) = 2 ^ (8 - r) * 2 ^ r := by rw [mul_comm]; exact hsplit.symm
  conv_rhs => rw [h256]
  rw [add_mul_mod_mul hlow]

/-- Shifted-and-masked byte: `(b <<< l) &&& 255 = 2^l * (b % 2^(8-l))` for `l < 8`. -/
theorem shl_and_255 (b l : Nat) (hl : l < 8) :
    b <<< l &&& 255 = 2 ^ l * (b % 2 ^ (8 - l)) := by
  have h255 : (255 : Nat) = 2 ^ 8 - 1 := by norm_num
  rw [Nat.shiftLeft_eq, h255, Nat.and_pow_two_sub_one_eq_mod]
  have hsplit : 2 ^ (8 - l) * 2 ^ l = 2 ^ 8 := by
    rw [← pow_add]
    congr 1
    omega
  rw [← hsplit, Nat.mul_mod_mul_right]
  ring

/-! ### Serializer (write side)

Mirrors the Python class `Serializer`. The buffer is a `numpy` array of
`uint8`; `Serializer.new(n)` allocates `n + _EXTRA_BUFFER_CAPACITY_BYTES`
zero-filled bytes (`_EXTRA_BUFFER_CAPACITY_BYTES = 1`).
-/

structure Serializer where
  buf : List Nat
  bit_offset : Nat
deriving Repr, DecidableEq

namespace Serializer

def new (buffer_size_in_bytes : Nat) : Serializer :=
  { buf := List.replicate (buffer_size_in_bytes + 1) 0, bit_offset := 0 }

def byte_offset (s : Serializer) : Nat := s.bit_offset / 8

def current_bit_length (s : Serializer) : Nat := s.bit_offset

/-- `Serializer.buffer`: read-only slice `buf[: (bit_offset + 7) // 8]`. -/
def buffer (s : Serializer) : List Nat := s.buf.take ((s.bit_offset + 7) / 8)

def skip_bits (bit_length : Nat) (s : Serializer) : Serializer :=
  { s with bit_offset := s.bit_offset + bit_length }

/-- `Serializer.fork_bytes`: raises `ValueError` when unaligned or when the
requested size (plus the extra capacity byte) exceeds the remaining buffer. -/
def fork_bytes (forked_buffer_size_in_bytes : Nat) (s : Serializer) :
    Except String Serializer :=
  if s.bit_offset % 8 ≠ 0 then
    .error "Cannot fork unaligned serializer"
  else
    let forked_buffer := s.buf.drop (s.bit_offset / 8)
    let size := forked_buffer_size_in_bytes + 1
    if forked_buffer.length < size then
      .error "The required forked buffer size exceeds the available remaining buffer space"
    else
      .ok { buf := forked_buffer.take size, bit_offset := 0 }

/-- numpy slice assignment `buf[i : i + len(bs)] = bs`. -/
def writeBytesAt : List Nat → Nat → List Nat → List Nat
  | buf, _, [] => buf
  | buf, i, b :: rest => writeBytesAt (buf.set i b) (i + 1) rest

/-- `Serializer.add_aligned_bytes`. -/
def add_aligned_bytes (x : List Nat) (s : Serializer) : Serializer :=
  { buf := writeBytesAt s.buf s.byte_offset x, bit_offset := s.bit_offset + x.length * 8 }

/-- One iteration of the `add_unaligned_bytes` loop:
`buf[byte_offset] |= (b << left) & 0xFF; bit_offset += 8; buf[byte_offset] = b >> right`. -/
def addUBStep (left right : Nat) (st : Serializer) (b : Nat) : Serializer :=
  let i := st.byte_offset
  let buf1 := st.buf.set i (st.buf.getD i 0 ||| (b <<< left &&& 255))
  { buf := buf1.set (i + 1) (b >>> right), bit_offset := st.bit_offset + 8 }

/-- `Serializer.add_unaligned_bytes` (Ben Dyer's unaligned bit copy). -/
def add_unaligned_bytes (value : List Nat) (s : Serializer) : Serializer :=
  let left := s.bit_offset % 8
  let right := 8 - left
  value.foldl (addUBStep left right) s

/-- `Serializer._unsigned_to_bytes` inner loop: `out[i] = value & 0xFF; value >>= 8`. -/
def natLEBytes : Nat → Nat → List Nat
  | _, 0 => []
  | v, n + 1 => (v &&& 255) :: natLEBytes (v >>> 8) n

/-- `Serializer._unsigned_to_bytes`: mask to `bit_length` bits, then emit
`(bit_length + 7) // 8` little-endian bytes. -/
def unsigned_to_bytes (value : Nat) (bit_length : Nat) : List Nat :=
  natLEBytes (value &&& (2 ^ bit_length - 1)) ((bit_length + 7) / 8)

/-- `Serializer._ensure_not_negative`. -/
def ensure_not_negative (x : Int) : Except String Unit :=
  if x < 0 then
    .error "The requested serialization method is not defined on negative integers"
  else
    .ok ()

/-- `Serializer.add_unaligned_unsigned`. -/
def add_unaligned_unsigned (value : Int) (bit_length : Nat) (s : Serializer) :
    Except String Serializer := do
  let _ ← ensure_not_negative value
  let bs := unsigned_to_bytes value.toNat bit_length
  let backtrack := bs.length * 8 - bit_length
  let s1 := add_unaligned_bytes bs s
  return { s1 with bit_offset := s1.bit_offset - backtrack }

/-- `Serializer.add_unaligned_signed`: two's complement conversion, then unsigned. -/
def add_unaligned_signed (value : Int) (bit_length : Nat) (s : Serializer) :
    Except String Serializer :=
  add_unaligned_unsigned (if value < 0 then 2 ^ bit_length + value else value) bit_length s

/-- `Serializer.add_aligned_unsigned`. -/
def add_aligned_unsigned (value : Int) (bit_length : Nat) (s : Serializer) :
    Except String Serializer := do
  let _ ← ensure_not_negative value
  let bs := unsigned_to_bytes value.toNat bit_length
  return { buf := writeBytesAt s.buf s.byte_offset bs, bit_offset := s.bit_offset + bit_length }

/-- `Serializer.add_aligned_signed`. -/
def add_aligned_signed (value : Int) (bit_length : Nat) (s : Serializer) :
    Except String Serializer :=
  add_aligned_unsigned (if value < 0 then 2 ^ bit_length + value else value) bit_length s

/-- `Serializer.add_aligned_u8`. numpy stores the value modulo 256
(the callers always supply a value already masked to one byte). -/
def add_aligned_u8 (x : Int) (s : Serializer) : Except String Serializer := do
  let _ ← ensure_not_negative x
  return { buf := s.buf.set s.byte_offset (x.emod 256).toNat, bit_offset := s.bit_offset + 8 }

/-- `Serializer.add_aligned_u16`: `add_aligned_u8(x & 0xFF); add_aligned_u8((x >> 8) & 0xFF)`.
Python's `& 0xFF` on an arbitrary int is `emod 256`; `>> 8` is `fdiv` by 256. -/
def add_aligned_u16 (x : Int) (s : Serializer) : Except String Serializer := do
  let _ ← ensure_not_negative x
  let s1 ← add_aligned_u8 (x.emod 256) s
  add_aligned_u8 ((x.fdiv 256).emod 256) s1

/-- `Serializer.add_aligned_u32`: `add_aligned_u16(x); add_aligned_u16(x >> 16)`. -/
def add_aligned_u32 (x : Int) (s : Serializer) : Except String Serializer := do
  let s1 ← add_aligned_u16 x s
  add_aligned_u16 (x.fdiv (2 ^ 16)) s1

/-- `Serializer.add_aligned_u64`: `add_aligned_u32(x); add_aligned_u32(x >> 32)`. -/
def add_aligned_u64 (x : Int) (s : Serializer) : Except String Serializer := do
  let s1 ← add_aligned_u32 x s
  add_aligned_u32 (x.fdiv (2 ^ 32)) s1

/-- `Serializer.add_unaligned_bit`: `buf[byte_offset] |= bool(x) << (bit_offset % 8)`. -/
def add_unaligned_bit (x : Bool) (s : Serializer) : Serializer :=
  { buf := s.buf.set s.byte_offset
      (s.buf.getD s.byte_offset 0 ||| (cond x 1 0) <<< (s.bit_offset % 8)),
    bit_offset := s.bit_offset + 1 }

/-! Correctness of the unaligned write loop. The invariant is that all bits
at positions `≥ bit_offset` are zero, i.e. `bytesNat buf < 2 ^ bit_offset`
(guaranteed by the zero-filled allocation of `Serializer.new`). -/

theorem addUBStep_spec (left : Nat) (hleft : left < 8) (st : Serializer) (b : Nat)
    (hb : b < 256) (hst : st.bit_offset % 8 = left)
    (hbuf : ∀ x ∈ st.buf, x < 256)
    (hres : bytesNat st.buf < 2 ^ st.bit_offset)
    (hcap : st.bit_offset / 8 + 1 < st.buf.length) :
    (addUBStep left (8 - left) st b).bit_offset = st.bit_offset + 8 ∧
    (addUBStep left (8 - left) st b).buf.length = st.buf.length ∧
    (∀ x ∈ (addUBStep left (8 - left) st b).buf, x < 256) ∧
    bytesNat (addUBStep left (8 - left) st b).buf
      = bytesNat st.buf + b * 2 ^ st.bit_offset := by
  have hsplit : 2 ^ left * 2 ^ (8 - left) = 256 := by
    rw [← pow_add, show left + (8 - left) = 8 from by omega]
    norm_num
  have hsplit' : 2 ^ (8 - left) * 2 ^ left = 256 := by rw [mul_comm]; exact hsplit
  set K := st.bit_offset with hKdef
  set j := K / 8 with hjdef
  have hK : K = 8 * j + left := by omega
  have h2K : 2 ^ K = 256 ^ j * 2 ^ left := by
    rw [hK, pow_add, pow_mul]
    norm_num
  set S := bytesNat st.buf with hSdef
  have hjlen : j < st.buf.length := by omega
  have hj1len : j + 1 < st.buf.length := by omega
  have hdj : st.buf.getD j 0 = S / 256 ^ j % 256 := bytesNat_getD st.buf hbuf j
  have hSj : S / 256 ^ j < 2 ^ left := by
    apply Nat.div_lt_of_lt_mul
    rw [← h2K]
    exact hres
  have h2l256 : 2 ^ left < 256 := by
    calc 2 ^ left ≤ 2 ^ 7 := Nat.pow_le_pow_right (by norm_num) (by omega)
    _ < 256 := by norm_num
  have hdj' : st.buf.getD j 0 = S / 256 ^ j := by
    rw [hdj, Nat.mod_eq_of_lt (by omega)]
  -- the OR-ed byte
  have hv1 : st.buf.getD j 0 ||| (b <<< left &&& 255)
      = S / 256 ^ j + 2 ^ left * (b % 2 ^ (8 - left)) := by
    rw [hdj', shl_and_255 b left hleft]
    exact lor_of_lt left _ hSj
  have hbmod : b % 2 ^ (8 - left) < 2 ^ (8 - left) := Nat.mod_lt _ (Nat.two_pow_pos _)
  have hXbound : 2 ^ left * (b % 2 ^ (8 - left)) + 2 ^ left ≤ 256 := by
    have h1 : b % 2 ^ (8 - left) + 1 ≤ 2 ^ (8 - left) := hbmod
    calc 2 ^ left * (b % 2 ^ (8 - left)) + 2 ^ left
        = 2 ^ left * (b % 2 ^ (8 - left) + 1) := by ring
    _ ≤ 2 ^ left * 2 ^ (8 - left) := Nat.mul_le_mul_left _ h1
    _ = 256 := hsplit
  have hv1lt : S / 256 ^ j + 2 ^ left * (b % 2 ^ (8 - left)) < 256 := by omega
  set buf1 := st.buf.set j (st.buf.getD j 0 ||| (b <<< left &&& 255)) with hbuf1
  have hlen1 : buf1.length = st.buf.length := by simp [hbuf1]
  have hbuf1lt : ∀ x ∈ buf1, x < 256 := by
    apply mem_set_lt _ _ _ hbuf
    rw [hv1]
    exact hv1lt
  have hS1 : bytesNat buf1 = S + 2 ^ left * (b % 2 ^ (8 - left)) * 256 ^ j := by
    have hset := bytesNat_set st.buf j (st.buf.getD j 0 ||| (b <<< left &&& 255)) hjlen
    rw [← hbuf1] at hset
    have e1 : (st.buf.getD j 0 ||| (b <<< left &&& 255)) * 256 ^ j
        = S / 256 ^ j * 256 ^ j + 2 ^ left * (b % 2 ^ (8 - left)) * 256 ^ j := by
      rw [hv1]
      ring
    have e2 : st.buf.getD j 0 * 256 ^ j = S / 256 ^ j * 256 ^ j := by rw [hdj']
    omega
  have hS1lt : bytesNat buf1 < 256 ^ (j + 1) := by
    have h1 : S < 2 ^ left * 256 ^ j := by rw [mul_comm, ← h2K]; exact hres
    have h2 : 2 ^ left * (b % 2 ^ (8 - left)) * 256 ^ j + 2 ^ left * 256 ^ j
        ≤ 256 * 256 ^ j := by
      calc 2 ^ left * (b % 2 ^ (8 - left)) * 256 ^ j + 2 ^ left * 256 ^ j
          = (2 ^ left * (b % 2 ^ (8 - left)) + 2 ^ left) * 256 ^ j := by ring
      _ ≤ 256 * 256 ^ j := Nat.mul_le_mul_right _ hXbound
    rw [hS1, pow_succ, mul_comm (256 ^ j) 256]
    omega
  have hd1 : buf1.getD (j + 1) 0 = 0 := by
    rw [bytesNat_getD buf1 hbuf1lt (j + 1), Nat.div_eq_of_lt (by exact hS1lt),
      Nat.zero_mod]
  have hbshr : b >>> (8 - left) = b / 2 ^ (8 - left) := Nat.shiftRight_eq_div_pow b _
  have hbshr_lt : b / 2 ^ (8 - left) < 256 := by
    have : b / 2 ^ (8 - left) < 2 ^ left :=
      Nat.div_lt_of_lt_mul (by rw [hsplit']; omega)
    omega
  have hset2 := bytesNat_set buf1 (j + 1) (b >>> (8 - left)) (by omega)
  rw [hd1, Nat.zero_mul, Nat.add_zero] at hset2
  have hfinal : bytesNat (buf1.set (j + 1) (b >>> (8 - left)))
      = S + b * 2 ^ K := by
    have hb_split : b * 2 ^ K
        = 2 ^ left * (b % 2 ^ (8 - left)) * 256 ^ j
          + b / 2 ^ (8 - left) * 256 ^ (j + 1) := by
      conv_lhs =>
        rw [show b = b % 2 ^ (8 - left) + 2 ^ (8 - left) * (b / 2 ^ (8 - left)) from
          (Nat.mod_add_div b _).symm]
      rw [h2K, pow_succ, ← hsplit']
      ring
    rw [hset2, hS1, hbshr, hb_split]
    ring
  refine ⟨rfl, ?_, ?_, ?_⟩
  · simp [addUBStep, hlen1]
  · intro x hx
    simp only [addUBStep] at hx
    exact mem_set_lt buf1 _ _ hbuf1lt (by rw [hbshr]; exact hbshr_lt) x hx
  · exact hfinal

theorem addUB_foldl_spec (left : Nat) (hleft : left < 8) (bs : List Nat) :
    ∀ st : Serializer, st.bit_offset % 8 = left →
    (∀ b ∈ bs, b < 256) → (∀ x ∈ st.buf, x < 256) →
    bytesNat st.buf < 2 ^ st.bit_offset →
    st.bit_offset / 8 + bs.length < st.buf.length →
    (bs.foldl (addUBStep left (8 - left)) st).bit_offset = st.bit_offset + 8 * bs.length ∧
    (bs.foldl (addUBStep left (8 - left)) st).buf.length = st.buf.length ∧
    (∀ x ∈ (bs.foldl (addUBStep left (8 - left)) st).buf, x < 256) ∧
    bytesNat (bs.foldl (addUBStep left (8 - left)) st).buf
      = bytesNat st.buf + bytesNat bs * 2 ^ st.bit_offset := by
  induction bs with
  | nil =>
    intro st _ _ hbuf _ _
    exact ⟨by simp, rfl, hbuf, by simp [bytesNat]⟩
  | cons b t ih =>
    intro st hst hbs hbuf hres hcap
    have hb : b < 256 := hbs b (by simp)
    have ht : ∀ x ∈ t, x < 256 := fun x hx => hbs x (by simp [hx])
    have hstep := addUBStep_spec left hleft st b hb hst hbuf hres
      (by simp only [List.length_cons] at hcap; omega)
    obtain ⟨ho, hl, hm, hv⟩ := hstep
    set st1 := addUBStep left (8 - left) st b with hst1
    have hst1off : st1.bit_offset % 8 = left := by omega
    have hres1 : bytesNat st1.buf < 2 ^ st1.bit_offset := by
      rw [hv, ho, pow_add]
      have h1 : bytesNat st.buf + b * 2 ^ st.bit_offset
          < (b + 1) * 2 ^ st.bit_offset := by
        calc bytesNat st.buf + b * 2 ^ st.bit_offset
            < 2 ^ st.bit_offset + b * 2 ^ st.bit_offset := Nat.add_lt_add_right hres _
        _ = (b + 1) * 2 ^ st.bit_offset := by ring
      have h2 : (b + 1) * 2 ^ st.bit_offset ≤ 256 * 2 ^ st.bit_offset :=
        Nat.mul_le_mul_right _ (by omega)
      calc bytesNat st.buf + b * 2 ^ st.bit_offset < (b + 1) * 2 ^ st.bit_offset := h1
      _ ≤ 256 * 2 ^ st.bit_offset := h2
      _ = 2 ^ st.bit_offset * 2 ^ 8 := by norm_num; ring
    have hcap1 : st1.bit_offset / 8 + t.length < st1.buf.length := by
      rw [ho, hl]
      simp only [List.length_cons] at hcap
      omega
    have hrec := ih st1 hst1off ht hm hres1 hcap1
    obtain ⟨ro, rl, rm, rv⟩ := hrec
    simp only [List.foldl_cons]
    rw [← hst1]
    refine ⟨?_, ?_, rm, ?_⟩
    · rw [ro, ho]
      simp only [List.length_cons]
      ring
    · rw [rl, hl]
    · rw [rv, hv, ho, bytesNat_cons, pow_add]
      ring

/-- The key property of `add_unaligned_bytes`: starting from a state whose
bits at positions `≥ bit_offset` are all zero, it appends exactly the bits of
`value` (little-endian) at the cursor. -/
theorem add_unaligned_bytes_spec (value : List Nat) (s : Serializer)
    (hbs : ∀ b ∈ value, b < 256) (hbuf : ∀ x ∈ s.buf, x < 256)
    (hres : bytesNat s.buf < 2 ^ s.bit_offset)
    (hcap : s.bit_offset / 8 + value.length < s.buf.length) :
    (Serializer.add_unaligned_bytes value s).bit_offset
      = s.bit_offset + 8 * value.length ∧
    (Serializer.add_unaligned_bytes value s).buf.length = s.buf.length ∧
    (∀ x ∈ (Serializer.add_unaligned_bytes value s).buf, x < 256) ∧
    bytesNat (Serializer.add_unaligned_bytes value s).buf
      = bytesNat s.buf + bytesNat value * 2 ^ s.bit_offset := by
  exact addUB_foldl_spec (s.bit_offset % 8) (Nat.mod_lt _ (by norm_num)) value s rfl
    hbs hbuf hres hcap

theorem natLEBytes_length (v n : Nat) : (natLEBytes v n).length = n := by
  induction n generalizing v with
  | zero => rfl
  | succ m ih => simp [natLEBytes, ih]

theorem natLEBytes_lt (v n : Nat) : ∀ b ∈ natLEBytes v n, b < 256 := by
  induction n generalizing v with
  | zero => simp [natLEBytes]
  | succ m ih =>
    intro b hb
    simp only [natLEBytes, List.mem_cons] at hb
    rcases hb with h | h
    · subst h
      have : v &&& 255 = v % 256 := by
        have h255 : (255 : Nat) = 2 ^ 8 - 1 := by norm_num
        rw [h255, Nat.and_pow_two_sub_one_eq_mod]
      omega
    · exact ih (v >>> 8) b h

theorem bytesNat_natLEBytes (v n : Nat) : bytesNat (natLEBytes v n) = v % 256 ^ n := by
  induction n generalizing v with
  | zero => simp [natLEBytes, bytesNat, Nat.mod_one]
  | succ m ih =>
    have hand : v &&& 255 = v % 256 := by
      have h255 : (255 : Nat) = 2 ^ 8 - 1 := by norm_num
      rw [h255, Nat.and_pow_two_sub_one_eq_mod]
    have hshr : v >>> 8 = v / 256 := by
      rw [Nat.shiftRight_eq_div_pow]
    simp only [natLEBytes, bytesNat_cons, ih, hand, hshr]
    rw [pow_succ, mul_comm (256 ^ m) 256, Nat.mod_mul]

theorem unsigned_to_bytes_length (v w : Nat) :
    (unsigned_to_bytes v w).length = (w + 7) / 8 := by
  simp [unsigned_to_bytes, natLEBytes_length]

theorem unsigned_to_bytes_lt (v w : Nat) : ∀ b ∈ unsigned_to_bytes v w, b < 256 :=
  natLEBytes_lt _ _

theorem bytesNat_unsigned_to_bytes (v w : Nat) :
    bytesNat (unsigned_to_bytes v w) = v % 2 ^ w := by
  rw [unsigned_to_bytes, bytesNat_natLEBytes, Nat.and_pow_two_sub_one_eq_mod]
  have hle : 2 ^ w ≤ 256 ^ ((w + 7) / 8) := by
    have h256 : (256 : Nat) = 2 ^ 8 := by norm_num
    rw [h256, ← pow_mul]
    exact Nat.pow_le_pow_right (by norm_num) (by omega)
  exact Nat.mod_eq_of_lt (lt_of_lt_of_le (Nat.mod_lt _ (Nat.two_pow_pos w)) hle)

/-- Aligned byte-block write under the zero-residue invariant. -/
theorem writeBytesAt_spec (bs : List Nat) : ∀ (buf : List Nat) (j : Nat),
    (∀ x ∈ buf, x < 256) → (∀ b ∈ bs, b < 256) →
    bytesNat buf < 256 ^ j → j + bs.length ≤ buf.length →
    (writeBytesAt buf j bs).length = buf.length ∧
    (∀ x ∈ writeBytesAt buf j bs, x < 256) ∧
    bytesNat (writeBytesAt buf j bs) = bytesNat buf + bytesNat bs * 256 ^ j := by
  induction bs with
  | nil =>
    intro buf j hbuf _ _ _
    exact ⟨rfl, hbuf, by simp [writeBytesAt, bytesNat]⟩
  | cons b t ih =>
    intro buf j hbuf hbs hres hcap
    have hb : b < 256 := hbs b (by simp)
    have ht : ∀ x ∈ t, x < 256 := fun x hx => hbs x (by simp [hx])
    have hjlen : j < buf.length := by
      simp only [List.length_cons] at hcap
      omega
    have hdj : buf.getD j 0 = 0 := by
      rw [bytesNat_getD buf hbuf j, Nat.div_eq_of_lt hres, Nat.zero_mod]
    have hset := bytesNat_set buf j b hjlen
    rw [hdj, Nat.zero_mul, Nat.add_zero] at hset
    have hlen1 : (buf.set j b).length = buf.length := by simp
    have hlt1 : ∀ x ∈ buf.set j b, x < 256 := mem_set_lt buf j b hbuf hb
    have hres1 : bytesNat (buf.set j b) < 256 ^ (j + 1) := by
      rw [hset, pow_succ]
      have h1 : b * 256 ^ j ≤ 255 * 256 ^ j := Nat.mul_le_mul_right _ (by omega)
      have h2 : bytesNat buf + 255 * 256 ^ j < 256 ^ j + 255 * 256 ^ j :=
        Nat.add_lt_add_right hres _
      have h3 : 256 ^ j + 255 * 256 ^ j = 256 ^ j * 256 := by ring
      omega
    have hcap1 : (j + 1) + t.length ≤ (buf.set j b).length := by
      rw [hlen1]
      simp only [List.length_cons] at hcap
      omega
    obtain ⟨rl, rm, rv⟩ := ih (buf.set j b) (j + 1) hlt1 ht hres1 hcap1
    refine ⟨?_, ?_, ?_⟩
    · show (writeBytesAt (buf.set j b) (j + 1) t).length = buf.length
      rw [rl, hlen1]
    · show ∀ x ∈ writeBytesAt (buf.set j b) (j + 1) t, x < 256
      exact rm
    · show bytesNat (writeBytesAt (buf.set j b) (j + 1) t)
          = bytesNat buf + bytesNat (b :: t) * 256 ^ j
      rw [rv, hset, bytesNat_cons, pow_succ]
      ring

/-- `add_unaligned_unsigned` on a nonnegative value: succeeds and appends
exactly `value mod 2^bit_length` at the cursor, advancing it by `bit_length`. -/
theorem add_unaligned_unsigned_spec (v w : Nat) (s : Serializer)
    (hw : 1 ≤ w) (hbuf : ∀ x ∈ s.buf, x < 256)
    (hres : bytesNat s.buf < 2 ^ s.bit_offset)
    (hcap : s.bit_offset / 8 + (w + 7) / 8 < s.buf.length) :
    ∃ s1, add_unaligned_unsigned (v : Int) w s = .ok s1 ∧
      s1.bit_offset = s.bit_offset + w ∧
      s1.buf.length = s.buf.length ∧
      (∀ x ∈ s1.buf, x < 256) ∧
      bytesNat s1.buf = bytesNat s.buf + v % 2 ^ w * 2 ^ s.bit_offset ∧
      bytesNat s1.buf < 2 ^ (s.bit_offset + w) := by
  have hnn : ¬((v : Int) < 0) := by omega
  have htn : (v : Int).toNat = v := Int.toNat_ofNat v
  have hspec := add_unaligned_bytes_spec (unsigned_to_bytes v w) s
    (unsigned_to_bytes_lt v w) hbuf hres
    (by rw [unsigned_to_bytes_length]; omega)
  obtain ⟨ho, hl, hm, hv⟩ := hspec
  refine ⟨{ buf := (add_unaligned_bytes (unsigned_to_bytes v w) s).buf,
            bit_offset := (add_unaligned_bytes (unsigned_to_bytes v w) s).bit_offset
              - ((unsigned_to_bytes v w).length * 8 - w) }, ?_, ?_, hl, hm, ?_, ?_⟩
  · rw [add_unaligned_unsigned]
    simp only [ensure_not_negative, if_neg hnn, htn]
    rfl
  · show (add_unaligned_bytes (unsigned_to_bytes v w) s).bit_offset
        - ((unsigned_to_bytes v w).length * 8 - w) = s.bit_offset + w
    rw [ho, unsigned_to_bytes_length]
    omega
  · show bytesNat (add_unaligned_bytes (unsigned_to_bytes v w) s).buf
        = bytesNat s.buf + v % 2 ^ w * 2 ^ s.bit_offset
    rw [hv, bytesNat_unsigned_to_bytes]
  · show bytesNat (add_unaligned_bytes (unsigned_to_bytes v w) s).buf
        < 2 ^ (s.bit_offset + w)
    rw [hv, bytesNat_unsigned_to_bytes, pow_add]
    have h1 : v % 2 ^ w * 2 ^ s.bit_offset ≤ (2 ^ w - 1) * 2 ^ s.bit_offset :=
      Nat.mul_le_mul_right _ (by have := Nat.mod_lt v (Nat.two_pow_pos w); omega)
    have h2 : bytesNat s.buf + (2 ^ w - 1) * 2 ^ s.bit_offset
        < 2 ^ s.bit_offset + (2 ^ w - 1) * 2 ^ s.bit_offset :=
      Nat.add_lt_add_right hres _
    have h3 : 2 ^ s.bit_offset + (2 ^ w - 1) * 2 ^ s.bit_offset
        = 2 ^ w * 2 ^ s.bit_offset := by
      have h4 : 0 < 2 ^ w := Nat.two_pow_pos w
      have h5 : (1 + (2 ^ w - 1)) = 2 ^ w := by omega
      calc 2 ^ s.bit_offset + (2 ^ w - 1) * 2 ^ s.bit_offset
          = (1 + (2 ^ w - 1)) * 2 ^ s.bit_offset := by ring
      _ = 2 ^ w * 2 ^ s.bit_offset := by rw [h5]
    have h6 : 2 ^ s.bit_offset * 2 ^ w = 2 ^ w * 2 ^ s.bit_offset := by ring
    omega

end Serializer

/-! ### ZeroExtendingBuffer (read side) -/

/-- `ZeroExtendingBuffer`: a contiguous byte source; reads beyond the end
yield zero. Construction concatenates the supplied fragments. -/
structure ZeroExtendingBuffer where
  buf : List Nat
deriving Repr, DecidableEq

namespace ZeroExtendingBuffer

/-- `ZeroExtendingBuffer.__init__` over a fragment sequence (concatenation). -/
def ofFragments (fragmented_buffer : List (List Nat)) : ZeroExtendingBuffer :=
  { buf := fragmented_buffer.flatten }

def bit_length (z : ZeroExtendingBuffer) : Nat := z.buf.length * 8

/-- `ZeroExtendingBuffer.get_byte`: out-of-range access returns zero.
(The index is a `Nat`, so the Python `ValueError` on negative indices is
unreachable in the model.) -/
def get_byte (z : ZeroExtendingBuffer) (index : Nat) : Nat := z.buf.getD index 0

/-- `ZeroExtendingBuffer.get_unsigned_slice`: `buf[left:right]` right-padded
with zeros to exactly `right - left` bytes. (`0 ≤ left ≤ right` holds by
construction at every call site in the model.) -/
def get_unsigned_slice (z : ZeroExtendingBuffer) (left right : Nat) : List Nat :=
  let out := (z.buf.drop left).take (right - left)
  out ++ List.replicate ((right - left) - out.length) 0

/-- `ZeroExtendingBuffer.fork_bytes`: a window of `length_bytes` bytes from
`offset_bytes`, required to lie entirely within the buffer. -/
def fork_bytes (z : ZeroExtendingBuffer) (offset_bytes length_bytes : Nat) :
    Except String (List (List Nat)) :=
  if offset_bytes + length_bytes > z.buf.length then
    .error "Invalid fork: offset + length exceeds the buffer length"
  else
    .ok [(z.buf.drop offset_bytes).take length_bytes]

theorem get_unsigned_slice_length (z : ZeroExtendingBuffer) (left right : Nat) :
    (z.get_unsigned_slice left right).length = right - left := by
  simp only [get_unsigned_slice, List.length_append, List.length_take,
    List.length_drop, List.length_replicate]
  omega

theorem get_unsigned_slice_lt (z : ZeroExtendingBuffer)
    (hz : ∀ b ∈ z.buf, b < 256) (left right : Nat) :
    ∀ b ∈ z.get_unsigned_slice left right, b < 256 := by
  intro b hb
  simp only [get_unsigned_slice, List.mem_append] at hb
  rcases hb with h | h
  · exact hz b (List.mem_of_mem_drop (List.mem_of_mem_take h))
  · have := List.eq_of_mem_replicate h
    omega

theorem bytesNat_get_unsigned_slice (z : ZeroExtendingBuffer)
    (hz : ∀ b ∈ z.buf, b < 256) (left right : Nat) :
    bytesNat (z.get_unsigned_slice left right)
      = bytesNat z.buf / 256 ^ left % 256 ^ (right - left) := by
  have hd : ∀ b ∈ z.buf.drop left, b < 256 :=
    fun b hb => hz b (List.mem_of_mem_drop hb)
  rw [get_unsigned_slice, bytesNat_append, bytesNat_replicate_zero, Nat.mul_zero,
    Nat.add_zero, bytesNat_take _ hd, bytesNat_drop _ hz]

end ZeroExtendingBuffer

/-! ### Deserializer -/

structure Deserializer where
  buf : ZeroExtendingBuffer
  bit_offset : Nat
deriving Repr, DecidableEq

namespace Deserializer

def new (fragmented_buffer : List (List Nat)) : Deserializer :=
  { buf := ZeroExtendingBuffer.ofFragments fragmented_buffer, bit_offset := 0 }

def consumed_bit_length (d : Deserializer) : Nat := d.bit_offset

/-- `remaining_bit_length`: negative when out of bounds (zero extension rule). -/
def remaining_bit_length (d : Deserializer) : Int :=
  (d.buf.bit_length : Int) - (d.bit_offset : Int)

def byte_offset (d : Deserializer) : Nat := d.bit_offset / 8

def skip_bits (bit_length : Nat) (d : Deserializer) : Deserializer :=
  { d with bit_offset := d.bit_offset + bit_length }

/-- `Deserializer.fork_bytes`. -/
def fork_bytes (forked_buffer_size_in_bytes : Nat) (d : Deserializer) :
    Except String Deserializer :=
  if d.bit_offset % 8 ≠ 0 then
    .error "Cannot fork unaligned deserializer"
  else
    let remaining_byte_length : Int := d.remaining_bit_length / 8
    if remaining_byte_length < (forked_buffer_size_in_bytes : Int) then
      .error "Invalid usage: the required forked buffer size exceeds the remaining buffer space"
    else do
      let frags ← d.buf.fork_bytes d.byte_offset forked_buffer_size_in_bytes
      return Deserializer.new frags

/-- `Deserializer.fetch_aligned_bytes`. -/
def fetch_aligned_bytes (count : Nat) (d : Deserializer) : List Nat × Deserializer :=
  (d.buf.get_unsigned_slice d.byte_offset (d.byte_offset + count),
   { d with bit_offset := d.bit_offset + count * 8 })

/-- `Deserializer.fetch_aligned_u8`. -/
def fetch_aligned_u8 (d : Deserializer) : Nat × Deserializer :=
  (d.buf.get_byte d.byte_offset, { d with bit_offset := d.bit_offset + 8 })

/-- `Deserializer.fetch_aligned_u16`: `u8 | (u8 << 8)`. -/
def fetch_aligned_u16 (d : Deserializer) : Nat × Deserializer :=
  let (a, d1) := fetch_aligned_u8 d
  let (b, d2) := fetch_aligned_u8 d1
  (a ||| b <<< 8, d2)

def fetch_aligned_u32 (d : Deserializer) : Nat × Deserializer :=
  let (a, d1) := fetch_aligned_u16 d
  let (b, d2) := fetch_aligned_u16 d1
  (a ||| b <<< 16, d2)

def fetch_aligned_u64 (d : Deserializer) : Nat × Deserializer :=
  let (a, d1) := fetch_aligned_u32 d
  let (b, d2) := fetch_aligned_u32 d1
  (a ||| b <<< 32, d2)

def fetch_aligned_i8 (d : Deserializer) : Int × Deserializer :=
  let (x, d1) := fetch_aligned_u8 d
  (if x ≥ 128 then (x : Int) - 256 else (x : Int), d1)

def fetch_aligned_i16 (d : Deserializer) : Int × Deserializer :=
  let (x, d1) := fetch_aligned_u16 d
  (if x ≥ 32768 then (x : Int) - 65536 else (x : Int), d1)

def fetch_aligned_i32 (d : Deserializer) : Int × Deserializer :=
  let (x, d1) := fetch_aligned_u32 d
  (if x ≥ 2 ^ 31 then (x : Int) - 2 ^ 32 else (x : Int), d1)

def fetch_aligned_i64 (d : Deserializer) : Int × Deserializer :=
  let (x, d1) := fetch_aligned_u64 d
  (if x ≥ 2 ^ 63 then (x : Int) - 2 ^ 64 else (x : Int), d1)

/-- `Deserializer._unsigned_from_bytes` accumulation loop over the low bytes:
`out |= x[i] << (8*i)` for `i < n`. -/
def ufbLow (x : List Nat) : Nat → Nat
  | 0 => 0
  | i + 1 => ufbLow x i ||| x.getD i 0 <<< (8 * i)

/-- `Deserializer._unsigned_from_bytes`: the final byte is masked to the
remaining bit width. -/
def unsigned_from_bytes (x : List Nat) (bit_length : Nat) : Nat :=
  let num_bytes := (bit_length + 7) / 8
  let last_byte_index := num_bytes - 1
  let msb_mask := if bit_length % 8 ≠ 0 then 2 ^ (bit_length % 8) - 1 else 255
  ufbLow x last_byte_index |||
    (x.getD last_byte_index 0 &&& msb_mask) <<< (last_byte_index * 8)

/-- `Deserializer.fetch_aligned_unsigned`. -/
def fetch_aligned_unsigned (bit_length : Nat) (d : Deserializer) : Nat × Deserializer :=
  let bs := d.buf.get_unsigned_slice d.byte_offset (d.byte_offset + (bit_length + 7) / 8)
  (unsigned_from_bytes bs bit_length, { d with bit_offset := d.bit_offset + bit_length })

/-- `Deserializer.fetch_aligned_signed`. -/
def fetch_aligned_signed (bit_length : Nat) (d : Deserializer) : Int × Deserializer :=
  let (u, d1) := fetch_aligned_unsigned bit_length d
  (if u ≥ 2 ^ (bit_length - 1) then (u : Int) - 2 ^ bit_length else (u : Int), d1)

/-- The `fetch_unaligned_bytes` loop body, iterated `count` times:
`out[i] = (buf[byte_offset] >> right) | ((buf[byte_offset + 1] << left) & 0xFF)`. -/
def fetchULoop (right left : Nat) : Nat → Deserializer → List Nat × Deserializer
  | 0, d => ([], d)
  | n + 1, d =>
    let b := d.buf.get_byte d.byte_offset >>> right |||
      d.buf.get_byte (d.byte_offset + 1) <<< left &&& 255
    let r := fetchULoop right left n { d with bit_offset := d.bit_offset + 8 }
    (b :: r.1, r.2)

/-- `Deserializer.fetch_unaligned_bytes`. -/
def fetch_unaligned_bytes (count : Nat) (d : Deserializer) : List Nat × Deserializer :=
  if 0 < count then
    if d.bit_offset % 8 ≠ 0 then
      fetchULoop (d.bit_offset % 8) (8 - d.bit_offset % 8) count d
    else
      fetch_aligned_bytes count d
  else
    ([], d)

/-- `Deserializer.fetch_unaligned_unsigned`. -/
def fetch_unaligned_unsigned (bit_length : Nat) (d : Deserializer) : Nat × Deserializer :=
  let byte_length := (bit_length + 7) / 8
  let r := fetch_unaligned_bytes byte_length d
  let backtrack := byte_length * 8 - bit_length
  (unsigned_from_bytes r.1 bit_length,
   { r.2 with bit_offset := r.2.bit_offset - backtrack })

/-- `Deserializer.fetch_unaligned_signed`. -/
def fetch_unaligned_signed (bit_length : Nat) (d : Deserializer) : Int × Deserializer :=
  let r := fetch_unaligned_unsigned bit_length d
  (if r.1 ≥ 2 ^ (bit_length - 1) then (r.1 : Int) - 2 ^ bit_length else (r.1 : Int), r.2)

/-- `numpy.unpackbits(bs, bitorder="little")`. -/
def unpackbits (bs : List Nat) : List Bool :=
  (List.range (bs.length * 8)).map (fun j => (bs.getD (j / 8) 0).testBit (j % 8))

/-- `Deserializer.fetch_aligned_array_of_bits`. -/
def fetch_aligned_array_of_bits (count : Nat) (d : Deserializer) :
    List Bool × Deserializer :=
  let bs := d.buf.get_unsigned_slice d.byte_offset (d.byte_offset + (count + 7) / 8)
  ((unpackbits bs).take count, { d with bit_offset := d.bit_offset + count })

/-- `Deserializer.fetch_unaligned_array_of_bits`. -/
def fetch_unaligned_array_of_bits (count : Nat) (d : Deserializer) :
    List Bool × Deserializer :=
  let byte_count := (count + 7) / 8
  let r := fetch_unaligned_bytes byte_count d
  let backtrack := byte_count * 8 - count
  ((unpackbits r.1).take count,
   { r.2 with bit_offset := r.2.bit_offset - backtrack })

/-- `Deserializer.fetch_unaligned_bit`. -/
def fetch_unaligned_bit (d : Deserializer) : Bool × Deserializer :=
  let mask := 1 <<< (d.bit_offset % 8)
  (decide (d.buf.get_byte d.byte_offset &&& mask = mask),
   { d with bit_offset := d.bit_offset + 1 })

/-- `_LittleEndianDeserializer.fetch_aligned_array_of_standard_bit_length_primitives`:
`numpy.frombuffer` over the slice; each element is the little-endian value of
its `itemsize` bytes. -/
def fetch_aligned_array_of_standard_bit_length_primitives
    (itemsize count : Nat) (d : Deserializer) : List Nat × Deserializer :=
  let bo := d.byte_offset
  let bs := d.buf.get_unsigned_slice bo (bo + count * itemsize)
  ((List.range count).map (fun i => bytesNat ((bs.drop (i * itemsize)).take itemsize)),
   { d with bit_offset := d.bit_offset + count * itemsize * 8 })

/-- `_LittleEndianDeserializer.fetch_unaligned_array_of_standard_bit_length_primitives`. -/
def fetch_unaligned_array_of_standard_bit_length_primitives
    (itemsize count : Nat) (d : Deserializer) : List Nat × Deserializer :=
  let r := fetch_unaligned_bytes (itemsize * count) d
  ((List.range count).map (fun i => bytesNat ((r.1.drop (i * itemsize)).take itemsize)),
   r.2)

theorem bytesNat_take_succ (l : List Nat) (i : Nat) :
    bytesNat (l.take (i + 1)) = bytesNat (l.take i) + l.getD i 0 * 256 ^ i := by
  induction l generalizing i with
  | nil => simp [bytesNat]
  | cons b t ih =>
    cases i with
    | zero => simp [bytesNat]
    | succ n =>
      simp only [List.take_succ_cons, bytesNat_cons, List.getD_cons_succ, ih n,
        pow_succ]
      ring

theorem ufbLow_eq (x : List Nat) (hx : ∀ b ∈ x, b < 256) (i : Nat) :
    ufbLow x i = bytesNat (x.take i) := by
  induction i with
  | zero => simp [ufbLow, bytesNat]
  | succ n ih =>
    have hlt : bytesNat (x.take n) < 2 ^ (8 * n) := by
      have h1 : bytesNat (x.take n) < 256 ^ (x.take n).length :=
        bytesNat_lt _ (fun b hb => hx b (List.mem_of_mem_take hb))
      have h2 : 256 ^ (x.take n).length ≤ 256 ^ n :=
        Nat.pow_le_pow_right (by norm_num) (by simp)
      have h3 : (256 : Nat) ^ n = 2 ^ (8 * n) := by
        rw [show (256 : Nat) = 2 ^ 8 from by norm_num, ← pow_mul]
      omega
    rw [ufbLow, ih, Nat.shiftLeft_eq, mul_comm (x.getD n 0) (2 ^ (8 * n)),
      lor_of_lt _ _ hlt, bytesNat_take_succ,
      show (2 : Nat) ^ (8 * n) = 256 ^ n from by
        rw [show (256 : Nat) = 2 ^ 8 from by norm_num, ← pow_mul]]
    ring

theorem unsigned_from_bytes_eq (x : List Nat) (bit_length : Nat)
    (hx : ∀ b ∈ x, b < 256) (hw : 1 ≤ bit_length) :
    unsigned_from_bytes x bit_length = bytesNat x % 2 ^ bit_length := by
  have hlast : (bit_length + 7) / 8 - 1 = (bit_length - 1) / 8 := by omega
  set la := (bit_length + 7) / 8 - 1 with hla
  have hm : 1 ≤ bit_length - 8 * la ∧ bit_length - 8 * la ≤ 8 ∧
      8 * la + (bit_length - 8 * la) = bit_length := by omega
  set m := bit_length - 8 * la with hmdef
  have hmask : (if bit_length % 8 ≠ 0 then 2 ^ (bit_length % 8) - 1 else 255)
      = 2 ^ m - 1 := by
    by_cases h : bit_length % 8 = 0
    · simp only [h, ne_eq, not_true_eq_false, if_false]
      have : m = 8 := by omega
      rw [this]
      norm_num
    · simp only [ne_eq, h, not_false_eq_true, if_true]
      have : bit_length % 8 = m := by omega
      rw [this]
  rw [unsigned_from_bytes]
  simp only [← hla, hmask]
  rw [Nat.and_pow_two_sub_one_eq_mod, ufbLow_eq x hx la, Nat.shiftLeft_eq,
    bytesNat_take _ hx la]
  have hdig : x.getD la 0 = bytesNat x / 256 ^ la % 256 := bytesNat_getD x hx la
  have hdig2 : x.getD la 0 % 2 ^ m = bytesNat x / 256 ^ la % 2 ^ m := by
    rw [hdig]
    exact Nat.mod_mod_of_dvd _ (by
      have h8 : (256 : Nat) = 2 ^ 8 := by norm_num
      rw [h8]
      exact pow_dvd_pow 2 (by omega))
  have hlow : bytesNat x % 256 ^ la < 256 ^ la := Nat.mod_lt _ (by positivity)
  have h256 : (256 : Nat) ^ la = 2 ^ (8 * la) := by
    rw [show (256 : Nat) = 2 ^ 8 from by norm_num, ← pow_mul]
  rw [hdig2, mul_comm (bytesNat x / 256 ^ la % 2 ^ m) (2 ^ (la * 8)),
    show la * 8 = 8 * la from by ring]
  have hlow2 : bytesNat x % 256 ^ la < 2 ^ (8 * la) := by
    rw [← h256]
    exact hlow
  rw [lor_of_lt _ _ hlow2, ← h256, ← Nat.mod_mul,
    show (256 : Nat) ^ la * 2 ^ m = 2 ^ bit_length from by
      rw [h256, ← pow_add]
      congr 1
      omega]

theorem fetchULoop_spec (right : Nat) (hr1 : 1 ≤ right) (hr : right < 8)
    (count : Nat) : ∀ d : Deserializer, d.bit_offset % 8 = right →
    (∀ b ∈ d.buf.buf, b < 256) →
    (fetchULoop right (8 - right) count d).1.length = count ∧
    (∀ b ∈ (fetchULoop right (8 - right) count d).1, b < 256) ∧
    bytesNat (fetchULoop right (8 - right) count d).1
      = bytesNat d.buf.buf / 2 ^ d.bit_offset % 256 ^ count ∧
    (fetchULoop right (8 - right) count d).2
      = { d with bit_offset := d.bit_offset + 8 * count } := by
  induction count with
  | zero =>
    intro d _ _
    refine ⟨rfl, by simp [fetchULoop], by simp [fetchULoop, bytesNat, Nat.mod_one], ?_⟩
    show d = { d with bit_offset := d.bit_offset + 8 * 0 }
    simp
  | succ n ih =>
    intro d hoff hz
    set K := d.bit_offset with hK
    set S := bytesNat d.buf.buf with hS
    set j := K / 8 with hj
    have hKj : K = 8 * j + right := by omega
    have hd0 : d.buf.get_byte j = S / 256 ^ j % 256 := bytesNat_getD _ hz j
    have hd1 : d.buf.get_byte (j + 1) = S / 256 ^ (j + 1) % 256 :=
      bytesNat_getD _ hz (j + 1)
    have hd1' : d.buf.get_byte (j + 1) = S / 256 ^ j / 256 % 256 := by
      rw [hd1, pow_succ, ← Nat.div_div_eq_div_mul]
    have hdiglt : S / 256 ^ j % 256 < 256 := Nat.mod_lt _ (by norm_num)
    have hsplit : 2 ^ right * 2 ^ (8 - right) = 256 := by
      rw [← pow_add, show right + (8 - right) = 8 from by omega]
      norm_num
    have hshr : d.buf.get_byte j >>> right = S / 256 ^ j % 256 / 2 ^ right := by
      rw [hd0, Nat.shiftRight_eq_div_pow]
    have hlow : S / 256 ^ j % 256 / 2 ^ right < 2 ^ (8 - right) :=
      Nat.div_lt_of_lt_mul (by rw [hsplit]; exact hdiglt)
    have h88 : 8 - (8 - right) = right := by omega
    have hb : d.buf.get_byte j >>> right |||
        d.buf.get_byte (j + 1) <<< (8 - right) &&& 255
        = S / 2 ^ K % 256 := by
      rw [hshr, shl_and_255 _ _ (by omega), h88, hd1',
        lor_of_lt _ _ hlow, unaligned_byte_eq (S / 256 ^ j) right hr]
      rw [Nat.div_div_eq_div_mul,
        show (256 : Nat) ^ j * 2 ^ right = 2 ^ K from by
          rw [show (256 : Nat) = 2 ^ 8 from by norm_num, ← pow_mul, ← pow_add, ← hKj]]
    have hrec := ih { d with bit_offset := d.bit_offset + 8 }
      (by simp; omega) hz
    simp only at hrec
    obtain ⟨rl, rm, rv, rs⟩ := hrec
    have hloop : fetchULoop right (8 - right) (n + 1) d
        = ((d.buf.get_byte d.byte_offset >>> right |||
            d.buf.get_byte (d.byte_offset + 1) <<< (8 - right) &&& 255) ::
              (fetchULoop right (8 - right) n { d with bit_offset := d.bit_offset + 8 }).1,
           (fetchULoop right (8 - right) n { d with bit_offset := d.bit_offset + 8 }).2) :=
      rfl
    rw [hloop]
    have hbo : d.byte_offset = j := rfl
    refine ⟨by simp [rl], ?_, ?_, ?_⟩
    · intro b hb'
      simp only [List.mem_cons] at hb'
      rcases hb' with h | h
      · rw [h, hbo, hb]
        exact Nat.mod_lt _ (by norm_num)
      · exact rm b h
    · rw [bytesNat_cons, hbo, hb, rv]
      have hdd : bytesNat d.buf.buf / 2 ^ (d.bit_offset + 8) = S / 2 ^ K / 256 := by
        rw [pow_add, ← Nat.div_div_eq_div_mul]
        norm_num
      rw [hdd, pow_succ, mul_comm (256 ^ n) 256, Nat.mod_mul]
    · rw [rs]
      show ({ d with bit_offset := (d.bit_offset + 8) + 8 * n } : Deserializer) = _
      have : d.bit_offset + 8 + 8 * n = d.bit_offset + 8 * (n + 1) := by ring
      rw [this]

/-- `fetch_unaligned_bytes` reads exactly the `8*count` bits at the cursor
(with implicit zero extension), as a little-endian byte list. -/
theorem fetch_unaligned_bytes_spec (count : Nat) (d : Deserializer)
    (hz : ∀ b ∈ d.buf.buf, b < 256) :
    (fetch_unaligned_bytes count d).1.length = count ∧
    (∀ b ∈ (fetch_unaligned_bytes count d).1, b < 256) ∧
    bytesNat (fetch_unaligned_bytes count d).1
      = bytesNat d.buf.buf / 2 ^ d.bit_offset % 256 ^ count ∧
    (fetch_unaligned_bytes count d).2
      = { d with bit_offset := d.bit_offset + 8 * count } := by
  rcases Nat.eq_zero_or_pos count with hc | hc
  · subst hc
    refine ⟨rfl, by simp [fetch_unaligned_bytes], ?_, ?_⟩
    · simp [fetch_unaligned_bytes, bytesNat, Nat.mod_one]
    · show ([], d).2 = { d with bit_offset := d.bit_offset + 8 * 0 }
      simp [fetch_unaligned_bytes]
  by_cases hal : d.bit_offset % 8 = 0
  · have hunfold : fetch_unaligned_bytes count d = fetch_aligned_bytes count d := by
      rw [fetch_unaligned_bytes, if_pos hc, if_neg (by simp [hal])]
    rw [hunfold]
    have hlen := d.buf.get_unsigned_slice_length d.byte_offset (d.byte_offset + count)
    have hlt := d.buf.get_unsigned_slice_lt hz d.byte_offset (d.byte_offset + count)
    have hval := d.buf.bytesNat_get_unsigned_slice hz d.byte_offset (d.byte_offset + count)
    refine ⟨by simpa [fetch_aligned_bytes] using hlen, hlt, ?_, ?_⟩
    · show bytesNat (d.buf.get_unsigned_slice d.byte_offset (d.byte_offset + count)) = _
      rw [hval]
      have h1 : d.byte_offset + count - d.byte_offset = count := by omega
      have h2 : (256 : Nat) ^ d.byte_offset = 2 ^ d.bit_offset := by
        rw [show (256 : Nat) = 2 ^ 8 from by norm_num, ← pow_mul]
        congr 1
        show 8 * (d.bit_offset / 8) = d.bit_offset
        omega
      rw [h1, h2]
    · show ({ d with bit_offset := d.bit_offset + count * 8 } : Deserializer) = _
      have : count * 8 = 8 * count := by ring
      rw [this]
  · have hunfold : fetch_unaligned_bytes count d
        = fetchULoop (d.bit_offset % 8) (8 - d.bit_offset % 8) count d := by
      rw [fetch_unaligned_bytes, if_pos hc, if_pos (by simp [hal])]
    rw [hunfold]
    exact fetchULoop_spec (d.bit_offset % 8) (by omega)
      (Nat.mod_lt _ (by norm_num)) count d rfl hz

/-- `fetch_unaligned_unsigned` returns the `bit_length` bits at the cursor. -/
theorem fetch_unaligned_unsigned_spec (w : Nat) (d : Deserializer)
    (hw : 1 ≤ w) (hz : ∀ b ∈ d.buf.buf, b < 256) :
    (fetch_unaligned_unsigned w d).1
      = bytesNat d.buf.buf / 2 ^ d.bit_offset % 2 ^ w ∧
    (fetch_unaligned_unsigned w d).2
      = { d with bit_offset := d.bit_offset + w } := by
  obtain ⟨hl, hm, hv, hs⟩ := fetch_unaligned_bytes_spec ((w + 7) / 8) d hz
  have hdvd : (2 : Nat) ^ w ∣ 256 ^ ((w + 7) / 8) := by
    rw [show (256 : Nat) = 2 ^ 8 from by norm_num, ← pow_mul]
    exact pow_dvd_pow 2 (by omega)
  constructor
  · show unsigned_from_bytes (fetch_unaligned_bytes ((w + 7) / 8) d).1 w = _
    rw [unsigned_from_bytes_eq _ _ hm hw, hv, Nat.mod_mod_of_dvd _ hdvd]
  · show ({ (fetch_unaligned_bytes ((w + 7) / 8) d).2 with
        bit_offset := (fetch_unaligned_bytes ((w + 7) / 8) d).2.bit_offset
          - ((w + 7) / 8 * 8 - w) } : Deserializer)
      = { d with bit_offset := d.bit_offset + w }
    rw [hs]
    have : d.bit_offset + 8 * ((w + 7) / 8) - ((w + 7) / 8 * 8 - w)
        = d.bit_offset + w := by omega
    simp only [this]

/-- `fetch_aligned_unsigned` likewise (stated for an arbitrary cursor; the
byte index used is `bit_offset / 8`). -/
theorem fetch_aligned_unsigned_spec (w : Nat) (d : Deserializer)
    (hw : 1 ≤ w) (hz : ∀ b ∈ d.buf.buf, b < 256) :
    (fetch_aligned_unsigned w d).1
      = bytesNat d.buf.buf / 256 ^ (d.bit_offset / 8) % 2 ^ w ∧
    (fetch_aligned_unsigned w d).2
      = { d with bit_offset := d.bit_offset + w } := by
  have hlt := d.buf.get_unsigned_slice_lt hz d.byte_offset (d.byte_offset + (w + 7) / 8)
  have hval := d.buf.bytesNat_get_unsigned_slice hz d.byte_offset
    (d.byte_offset + (w + 7) / 8)
  have hdvd : (2 : Nat) ^ w ∣ 256 ^ ((w + 7) / 8) := by
    rw [show (256 : Nat) = 2 ^ 8 from by norm_num, ← pow_mul]
    exact pow_dvd_pow 2 (by omega)
  constructor
  · show unsigned_from_bytes
        (d.buf.get_unsigned_slice d.byte_offset (d.byte_offset + (w + 7) / 8)) w = _
    rw [unsigned_from_bytes_eq _ _ hlt hw, hval,
      show d.byte_offset + (w + 7) / 8 - d.byte_offset = (w + 7) / 8 from by omega,
      Nat.mod_mod_of_dvd _ hdvd]
    rfl
  · rfl

end Deserializer

/-! ### IEEE-754 floats

Python floats are IEEE-754 values; `struct.pack("<e"/"<f"/"<d", x)` emits the
little-endian bytes of the binary16/32/64 encoding and raises `OverflowError`
when a finite value rounds outside the finite range of the target width.
The model represents a Python float as an exact value (`PyFloat`) and
implements the IEEE round-to-nearest-even encoding to a bit pattern. -/

inductive PyFloat where
  | finite (q : ℚ)
  | inf
  | neginf
  | nan
deriving DecidableEq, Repr

structure FloatFmt where
  mbits : Nat
  ebits : Nat
deriving DecidableEq, Repr

/-- binary16, struct format char `e`. -/
def FloatFmt.e : FloatFmt := ⟨10, 5⟩

/-- binary32, struct format char `f`. -/
def FloatFmt.f : FloatFmt := ⟨23, 8⟩

/-- binary64, struct format char `d`. -/
def FloatFmt.d : FloatFmt := ⟨52, 11⟩

def FloatFmt.bytes (fmt : FloatFmt) : Nat := (fmt.mbits + fmt.ebits + 1) / 8

def FloatFmt.bias (fmt : FloatFmt) : Nat := 2 ^ (fmt.ebits - 1) - 1

/-- Round `n / d` to the nearest integer, ties to even. -/
def rne (n d : Nat) : Nat :=
  let q := n / d
  let r := n % d
  if 2 * r < d then q
  else if d < 2 * r then q + 1
  else if q % 2 = 0 then q else q + 1

/-- `⌊log2 n⌋`, written with explicit fuel (structural recursion) so that
the kernel can evaluate it on concrete inputs. -/
def log2fuel : Nat → Nat → Nat
  | 0, _ => 0
  | fuel + 1, n => if n ≤ 1 then 0 else log2fuel fuel (n / 2) + 1

def natLog2 (n : Nat) : Nat := log2fuel n n

/-- `⌊log2 (n / d)⌋` for positive `n, d`. -/
def log2floorRat (n d : Nat) : Int :=
  if d ≤ n then (natLog2 (n / d) : Int)
  else
    let j := natLog2 (d / n)
    if d ≤ n * 2 ^ j then -(j : Int) else -(j : Int) - 1

/-- `rne (n / d * 2 ^ t)` for a possibly negative exponent `t`. -/
def rneScaled (n d : Nat) (t : Int) : Nat :=
  if 0 ≤ t then rne (n * 2 ^ t.toNat) d else rne n (d * 2 ^ (-t).toNat)

/-- IEEE-754 encoding of a value into a bit pattern of the given format;
`.error ()` is the `OverflowError` of `struct.pack` (finite value rounds to
infinity). -/
def encodePattern (fmt : FloatFmt) : PyFloat → Except Unit Nat
  | .inf => .ok ((2 ^ fmt.ebits - 1) <<< fmt.mbits)
  | .neginf => .ok (1 <<< (fmt.mbits + fmt.ebits) ||| (2 ^ fmt.ebits - 1) <<< fmt.mbits)
  | .nan => .ok ((2 ^ fmt.ebits - 1) <<< fmt.mbits ||| 1 <<< (fmt.mbits - 1))
  | .finite q =>
    if q = 0 then .ok 0
    else
      let sign : Nat := if q < 0 then 1 else 0
      let n := q.num.natAbs
      let d := q.den
      let e := log2floorRat n d
      let emin : Int := 1 - (fmt.bias : Int)
      let eEff := max e emin
      let M := rneScaled n d ((fmt.mbits : Int) - eEff)
      let MC := if M = 2 ^ (fmt.mbits + 1) then 2 ^ fmt.mbits else M
      let eC := if M = 2 ^ (fmt.mbits + 1) then eEff + 1 else eEff
      if MC < 2 ^ fmt.mbits then
        .ok (sign <<< (fmt.mbits + fmt.ebits) ||| MC)
      else
        let expField := eC - emin + 1
        if (2 ^ fmt.ebits - 1 : Int) ≤ expField then .error ()
        else
          .ok (sign <<< (fmt.mbits + fmt.ebits) |||
            expField.toNat <<< fmt.mbits ||| (MC - 2 ^ fmt.mbits))

/-- IEEE-754 decoding of a bit pattern (`struct.unpack`). -/
def decodePattern (fmt : FloatFmt) (p : Nat) : PyFloat :=
  let mant := p % 2 ^ fmt.mbits
  let expf := p / 2 ^ fmt.mbits % 2 ^ fmt.ebits
  let sign := p / 2 ^ (fmt.mbits + fmt.ebits) % 2
  if expf = 2 ^ fmt.ebits - 1 then
    if mant = 0 then (if sign = 1 then .neginf else .inf) else .nan
  else
    let sgn : ℚ := if sign = 1 then -1 else 1
    if expf = 0 then
      .finite (sgn * mant * (2 : ℚ) ^ (1 - (fmt.bias : Int) - (fmt.mbits : Int)))
    else
      .finite (sgn * (2 ^ fmt.mbits + mant) *
        (2 : ℚ) ^ ((expf : Int) - (fmt.bias : Int) - (fmt.mbits : Int)))

/-- Python `x > 0` on a float. -/
def PyFloat.isPositive : PyFloat → Bool
  | .finite q => decide (0 < q)
  | .inf => true
  | .neginf => false
  | .nan => false

/-- `Serializer._float_to_bytes`: pack the value; on `OverflowError`, pack
`+inf` for positive input and `-inf` otherwise. -/
def float_to_bytes (fmt : FloatFmt) (x : PyFloat) : List Nat :=
  match encodePattern fmt x with
  | .ok p => Serializer.natLEBytes p fmt.bytes
  | .error _ =>
    match encodePattern fmt (if x.isPositive then .inf else .neginf) with
    | .ok p => Serializer.natLEBytes p fmt.bytes
    | .error _ => []

namespace Serializer

def add_aligned_f16 (x : PyFloat) (s : Serializer) : Serializer :=
  add_aligned_bytes (float_to_bytes .e x) s

def add_aligned_f32 (x : PyFloat) (s : Serializer) : Serializer :=
  add_aligned_bytes (float_to_bytes .f x) s

def add_aligned_f64 (x : PyFloat) (s : Serializer) : Serializer :=
  add_aligned_bytes (float_to_bytes .d x) s

def add_unaligned_f16 (x : PyFloat) (s : Serializer) : Serializer :=
  add_unaligned_bytes (float_to_bytes .e x) s

def add_unaligned_f32 (x : PyFloat) (s : Serializer) : Serializer :=
  add_unaligned_bytes (float_to_bytes .f x) s

def add_unaligned_f64 (x : PyFloat) (s : Serializer) : Serializer :=
  add_unaligned_bytes (float_to_bytes .d x) s

end Serializer

namespace Deserializer

/-- `struct.unpack("<e", bs)`. -/
def fetch_aligned_f16 (d : Deserializer) : PyFloat × Deserializer :=
  let r := fetch_aligned_bytes 2 d
  (decodePattern .e (bytesNat r.1), r.2)

def fetch_aligned_f32 (d : Deserializer) : PyFloat × Deserializer :=
  let r := fetch_aligned_bytes 4 d
  (decodePattern .f (bytesNat r.1), r.2)

def fetch_aligned_f64 (d : Deserializer) : PyFloat × Deserializer :=
  let r := fetch_aligned_bytes 8 d
  (decodePattern .d (bytesNat r.1), r.2)

def fetch_unaligned_f16 (d : Deserializer) : PyFloat × Deserializer :=
  let r := fetch_unaligned_bytes 2 d
  (decodePattern .e (bytesNat r.1), r.2)

def fetch_unaligned_f32 (d : Deserializer) : PyFloat × Deserializer :=
  let r := fetch_unaligned_bytes 4 d
  (decodePattern .f (bytesNat r.1), r.2)

def fetch_unaligned_f64 (d : Deserializer) : PyFloat × Deserializer :=
  let r := fetch_unaligned_bytes 8 d
  (decodePattern .d (bytesNat r.1), r.2)

end Deserializer

/-! ### Further helper lemmas -/

theorem set_getD_self (l : List Nat) (i : Nat) : l.set i (l.getD i 0) = l := by
  induction l generalizing i with
  | nil => rfl
  | cons b t ih =>
    cases i with
    | zero => rfl
    | succ n => rw [List.getD_cons_succ, List.set_cons_succ, ih n]

theorem getD_replicate_zero (m i : Nat) : (List.replicate m 0).getD i 0 = 0 := by
  induction m generalizing i with
  | zero => rfl
  | succ n ih =>
    cases i with
    | zero => rfl
    | succ j => simp [List.replicate_succ, ih j]

/-- Writing `k` padding bits one at a time (`add_unaligned_bit False`), as
`pad_to_alignment` does. -/
def addDummyBits : Nat → Serializer → Serializer
  | 0, s => s
  | m + 1, s => addDummyBits m (Serializer.add_unaligned_bit false s)

theorem add_unaligned_bit_false (s : Serializer) :
    Serializer.add_unaligned_bit false s
      = { s with bit_offset := s.bit_offset + 1 } := by
  rw [Serializer.add_unaligned_bit]
  rw [show (cond false 1 0 : Nat) <<< (s.bit_offset % 8) = 0 from by
    simp [Nat.zero_shiftLeft]]
  rw [show s.buf.getD s.byte_offset 0 ||| 0 = s.buf.getD s.byte_offset 0 from by simp]
  rw [set_getD_self]

theorem addDummyBits_spec (m : Nat) (s : Serializer) :
    (addDummyBits m s).buf = s.buf ∧
    (addDummyBits m s).bit_offset = s.bit_offset + m := by
  induction m generalizing s with
  | zero => exact ⟨rfl, rfl⟩
  | succ p ih =>
    obtain ⟨h1, h2⟩ := ih { s with bit_offset := s.bit_offset + 1 }
    rw [addDummyBits, add_unaligned_bit_false]
    refine ⟨h1, ?_⟩
    rw [h2]
    show s.bit_offset + 1 + p = s.bit_offset + (p + 1)
    omega

theorem new_single_buf (l : List Nat) : (Deserializer.new [l]).buf.buf = l := by
  simp [Deserializer.new, ZeroExtendingBuffer.ofFragments]

theorem get_byte_past_end (z : ZeroExtendingBuffer) (i : Nat)
    (h : z.buf.length ≤ i) : z.get_byte i = 0 :=
  List.getD_eq_default _ _ h

theorem slice_past_end (z : ZeroExtendingBuffer) (left right : Nat)
    (h : z.buf.length ≤ left) :
    z.get_unsigned_slice left right = List.replicate (right - left) 0 := by
  rw [ZeroExtendingBuffer.get_unsigned_slice]
  have hd : z.buf.drop left = [] := List.drop_eq_nil_of_le h
  simp [hd]

theorem unsigned_from_bytes_zero (m w : Nat) (hw : 1 ≤ w) :
    Deserializer.unsigned_from_bytes (List.replicate m 0) w = 0 := by
  rw [Deserializer.unsigned_from_bytes_eq _ _
    (fun b hb => by have := List.eq_of_mem_replicate hb; omega) hw,
    bytesNat_replicate_zero, Nat.zero_mod]

theorem unpackbits_replicate_zero (m : Nat) :
    Deserializer.unpackbits (List.replicate m 0) = List.replicate (m * 8) false := by
  rw [List.eq_replicate_iff]
  constructor
  · simp [Deserializer.unpackbits]
  · intro b hb
    simp only [Deserializer.unpackbits, List.mem_map] at hb
    obtain ⟨j, _, hj⟩ := hb
    rw [getD_replicate_zero] at hj
    simpa using hj.symm

theorem float_to_bytes_length (fmt : FloatFmt) (x : PyFloat) :
    (float_to_bytes fmt x).length = fmt.bytes := by
  rw [float_to_bytes]
  cases h : encodePattern fmt x with
  | ok p => exact Serializer.natLEBytes_length p fmt.bytes
  | error e =>
    cases hp : x.isPositive <;>
      simp [hp, encodePattern, Serializer.natLEBytes_length]

theorem float_to_bytes_lt (fmt : FloatFmt) (x : PyFloat) :
    ∀ b ∈ float_to_bytes fmt x, b < 256 := by
  rw [float_to_bytes]
  cases h : encodePattern fmt x with
  | ok p => exact Serializer.natLEBytes_lt p fmt.bytes
  | error e =>
    cases hp : x.isPositive <;>
      simp only [hp, encodePattern, if_true, if_false, cond_true, cond_false] <;>
      exact Serializer.natLEBytes_lt _ _

/-! ### Top-level facade -/

/-- Python exception classes relevant to the deserialization facade.
`Deserializer.FormatError` is a subclass of `ValueError`; any other class
models "an error that is not a FormatError". -/
inductive PyError where
  | formatError (msg : String)
  | valueError (msg : String)
  | typeError (msg : String)
  | attributeError (msg : String)
deriving DecidableEq, Repr

def PyError.isFormatError : PyError → Bool
  | .formatError _ => true
  | _ => false

/-- Top-level `deserialize(dtype, fragmented_serialized_representation)`.
The generated routine `dtype._deserialize_` is external to this library and
is therefore a parameter; it either returns an object or raises. -/
def deserialize {α : Type} (deserialize_impl : Deserializer → Except PyError α)
    (fragmented_serialized_representation : List (List Nat)) :
    Except PyError (Option α) :=
  match deserialize_impl (Deserializer.new fragmented_serialized_representation) with
  | .ok obj => .ok (some obj)
  | .error (.formatError _) => .ok none
  | .error e => .error e

/-! ### Closed forms of the checked unsigned writes on nonnegative input -/

theorem add_aligned_unsigned_ofNat (v w : Nat) (s : Serializer) :
    Serializer.add_aligned_unsigned (v : Int) w s
      = .ok { buf := Serializer.writeBytesAt s.buf s.byte_offset
                (Serializer.unsigned_to_bytes v w),
              bit_offset := s.bit_offset + w } := by
  rw [Serializer.add_aligned_unsigned]
  simp only [Serializer.ensure_not_negative,
    if_neg (show ¬((v : Int) < 0) from by omega), Int.toNat_ofNat]
  rfl

theorem add_unaligned_unsigned_ofNat (v w : Nat) (s : Serializer) :
    Serializer.add_unaligned_unsigned (v : Int) w s
      = .ok { buf := (Serializer.add_unaligned_bytes (Serializer.unsigned_to_bytes v w) s).buf,
              bit_offset :=
                (Serializer.add_unaligned_bytes (Serializer.unsigned_to_bytes v w) s).bit_offset
                  - ((Serializer.unsigned_to_bytes v w).length * 8 - w) } := by
  rw [Serializer.add_unaligned_unsigned]
  simp only [Serializer.ensure_not_negative,
    if_neg (show ¬((v : Int) < 0) from by omega), Int.toNat_ofNat]
  rfl

theorem unsigned_to_bytes_mod (v w : Nat) :
    Serializer.unsigned_to_bytes (v % 2 ^ w) w = Serializer.unsigned_to_bytes v w := by
  rw [Serializer.unsigned_to_bytes, Serializer.unsigned_to_bytes,
    Nat.and_pow_two_sub_one_eq_mod, Nat.and_pow_two_sub_one_eq_mod,
    Nat.mod_mod_of_dvd _ dvd_rfl]

/-! ### Claims -/

/-- C5: Unsigned truncation. For every nonnegative value and every width
`w ≥ 1`, the unsigned write operations (aligned and unaligned) discard the
bits of the value above the requested width, writing only `value mod 2^w`:
writing `v` is identical to writing `v mod 2^w`. In particular
`add_aligned_unsigned(0xBEDA, 12)` on a fresh serializer writes exactly the
low 12 bits `0xEDA` (bytes `DA 0E`); the high nibble `0xB` is lost. -/
theorem C5_unsigned_truncation :
    (∀ (v w : Nat) (s : Serializer), 1 ≤ w →
      Serializer.add_aligned_unsigned ((v % 2 ^ w : Nat) : Int) w s
        = Serializer.add_aligned_unsigned (v : Int) w s) ∧
    (∀ (v w : Nat) (s : Serializer), 1 ≤ w →
      Serializer.add_unaligned_unsigned ((v % 2 ^ w : Nat) : Int) w s
        = Serializer.add_unaligned_unsigned (v : Int) w s) ∧
    Serializer.add_aligned_unsigned (0xBEDA : Int) 12 (Serializer.new 4)
      = .ok { buf := [0xDA, 0x0E, 0, 0, 0], bit_offset := 12 } ∧
    bytesNat [0xDA, 0x0E, 0, 0, 0] = 0xEDA := by
  refine ⟨?_, ?_, by rfl, by decide⟩
  · intro v w s _
    rw [add_aligned_unsigned_ofNat, add_aligned_unsigned_ofNat, unsigned_to_bytes_mod]
  · intro v w s _
    rw [add_unaligned_unsigned_ofNat, add_unaligned_unsigned_ofNat, unsigned_to_bytes_mod]

/-- Witness for C5 at the spec's concrete input `0xBEDA`, width 12. -/
theorem C5_witness :
    1 ≤ 12 ∧
    Serializer.add_aligned_unsigned ((0xBEDA % 2 ^ 12 : Nat) : Int) 12 (Serializer.new 4)
      = Serializer.add_aligned_unsigned (0xBEDA : Int) 12 (Serializer.new 4) :=
  ⟨by decide, C5_unsigned_truncation.1 0xBEDA 12 (Serializer.new 4) (by decide)⟩

/-- C6: Negative unsigned input. Every unsigned-write operation of the
Serializer (`add_aligned_u8/u16/u32/u64` and the arbitrary-width
`add_aligned_unsigned` / `add_unaligned_unsigned`), when given a negative
integer, raises `ValueError` ("not defined on negative integers") and
produces no new serializer state (the result carries no serializer, so
nothing is written). -/
theorem C6_negative_unsigned_writes (x : Int) (hx : x < 0) (s : Serializer) (w : Nat) :
    (∃ e, Serializer.add_aligned_u8 x s = .error e) ∧
    (∃ e, Serializer.add_aligned_u16 x s = .error e) ∧
    (∃ e, Serializer.add_aligned_u32 x s = .error e) ∧
    (∃ e, Serializer.add_aligned_u64 x s = .error e) ∧
    (∃ e, Serializer.add_aligned_unsigned x w s = .error e) ∧
    (∃ e, Serializer.add_unaligned_unsigned x w s = .error e) := by
  have hu8 : ∀ t : Serializer, Serializer.add_aligned_u8 x t
      = .error "The requested serialization method is not defined on negative integers" := by
    intro t
    rw [Serializer.add_aligned_u8]
    simp only [Serializer.ensure_not_negative, if_pos hx]
    rfl
  have hu16 : ∀ t : Serializer, Serializer.add_aligned_u16 x t
      = .error "The requested serialization method is not defined on negative integers" := by
    intro t
    rw [Serializer.add_aligned_u16]
    simp only [Serializer.ensure_not_negative, if_pos hx]
    rfl
  have hu32 : ∀ t : Serializer, Serializer.add_aligned_u32 x t
      = .error "The requested serialization method is not defined on negative integers" := by
    intro t
    rw [Serializer.add_aligned_u32, hu16 t]
    rfl
  refine ⟨⟨_, hu8 s⟩, ⟨_, hu16 s⟩, ⟨_, hu32 s⟩, ?_, ?_, ?_⟩
  · exact ⟨_, by rw [Serializer.add_aligned_u64, hu32 s]; rfl⟩
  · refine ⟨"The requested serialization method is not defined on negative integers", ?_⟩
    rw [Serializer.add_aligned_unsigned]
    simp only [Serializer.ensure_not_negative, if_pos hx]
    rfl
  · refine ⟨"The requested serialization method is not defined on negative integers", ?_⟩
    rw [Serializer.add_unaligned_unsigned]
    simp only [Serializer.ensure_not_negative, if_pos hx]
    rfl

/-- Witness for C6 at `x = -42` (as in the repository's own unit test). -/
theorem C6_witness :
    (-42 : Int) < 0 ∧
    (∃ e, Serializer.add_aligned_u8 (-42) (Serializer.new 1) = .error e) :=
  ⟨by decide, (C6_negative_unsigned_writes (-42) (by decide) (Serializer.new 1) 7).1⟩

/-- C9: Top-level deserialize facade. For every generated type (modelled by
its deserialization routine, a parameter) and every fragment sequence: if the
routine raises `Deserializer.FormatError`, top-level `deserialize` returns
the no-instance result `none` instead of propagating; every exception of any
other class propagates unchanged; a successful routine yields the instance. -/
theorem C9_deserialize_facade {α : Type} (impl : Deserializer → Except PyError α)
    (frags : List (List Nat)) :
    (∀ msg, impl (Deserializer.new frags) = .error (.formatError msg) →
      deserialize impl frags = .ok none) ∧
    (∀ e, e.isFormatError = false → impl (Deserializer.new frags) = .error e →
      deserialize impl frags = .error e) ∧
    (∀ obj, impl (Deserializer.new frags) = .ok obj →
      deserialize impl frags = .ok (some obj)) := by
  refine ⟨?_, ?_, ?_⟩
  · intro msg h
    rw [deserialize, h]
  · intro e he h
    rw [deserialize, h]
    cases e with
    | formatError m => simp [PyError.isFormatError] at he
    | valueError m => rfl
    | typeError m => rfl
    | attributeError m => rfl
  · intro obj h
    rw [deserialize, h]

/-- Witness for C9: a routine that raises `FormatError` yields `none`; one
that raises `TypeError` propagates it. -/
theorem C9_witness :
    deserialize (fun _ => (.error (.formatError "bad data") : Except PyError Unit)) [[1]]
      = .ok none ∧
    deserialize (fun _ => (.error (.typeError "bug") : Except PyError Unit)) [[1]]
      = .error (.typeError "bug") :=
  ⟨(C9_deserialize_facade (fun _ => .error (.formatError "bad data")) [[1]]).1
      "bad data" rfl,
   (C9_deserialize_facade (fun _ => .error (.typeError "bug")) [[1]]).2.1
      (.typeError "bug") rfl rfl⟩

/-- C10: For every bit width `w ≥ 1`, every buffer content (bytes), and every
cursor position, `fetch_aligned_unsigned` and `fetch_unaligned_unsigned`
return a value in `[0, 2^w)`: the bits of the final fetched byte above the
requested width are masked off even if the underlying bytes hold nonzero
garbage there. -/
theorem C10_unsigned_fetch_range (d : Deserializer) (w : Nat) (hw : 1 ≤ w)
    (hz : ∀ b ∈ d.buf.buf, b < 256) :
    (Deserializer.fetch_aligned_unsigned w d).1 < 2 ^ w ∧
    (Deserializer.fetch_unaligned_unsigned w d).1 < 2 ^ w := by
  constructor
  · rw [(Deserializer.fetch_aligned_unsigned_spec w d hw hz).1]
    exact Nat.mod_lt _ (Nat.two_pow_pos w)
  · rw [(Deserializer.fetch_unaligned_unsigned_spec w d hw hz).1]
    exact Nat.mod_lt _ (Nat.two_pow_pos w)

/-- Witness for C10: a 12-bit fetch over bytes `DA FE` (garbage high nibble)
stays below `2^12`. -/
theorem C10_witness :
    1 ≤ 12 ∧ (∀ b ∈ (Deserializer.new [[0xDA, 0xFE]]).buf.buf, b < 256) ∧
    (Deserializer.fetch_aligned_unsigned 12 (Deserializer.new [[0xDA, 0xFE]])).1 < 2 ^ 12 :=
  ⟨by decide, by decide,
   (C10_unsigned_fetch_range (Deserializer.new [[0xDA, 0xFE]]) 12 (by decide)
     (by decide)).1⟩

/-- A fetch past the end of the buffer yields zero (implicit zero extension). -/
theorem fetch_unaligned_unsigned_exhausted (w : Nat) (d : Deserializer)
    (hw : 1 ≤ w) (hz : ∀ b ∈ d.buf.buf, b < 256)
    (hex : 8 * d.buf.buf.length ≤ d.bit_offset) :
    (Deserializer.fetch_unaligned_unsigned w d).1 = 0 := by
  rw [(Deserializer.fetch_unaligned_unsigned_spec w d hw hz).1]
  have h1 : bytesNat d.buf.buf < 2 ^ d.bit_offset := by
    have h2 : bytesNat d.buf.buf < 256 ^ d.buf.buf.length := bytesNat_lt _ hz
    have h3 : (256 : Nat) ^ d.buf.buf.length = 2 ^ (8 * d.buf.buf.length) := by
      rw [show (256 : Nat) = 2 ^ 8 from by norm_num, ← pow_mul]
    have h4 : (2 : Nat) ^ (8 * d.buf.buf.length) ≤ 2 ^ d.bit_offset :=
      Nat.pow_le_pow_right (by norm_num) hex
    omega
  rw [Nat.div_eq_of_lt h1, Nat.zero_mod]

/-- C3: Serializer fork. `fork_bytes(size)` fails with `ValueError` exactly
when the cursor is not byte-aligned or `size + 1` exceeds the bytes remaining
in the parent's buffer; on success it returns a Serializer over the parent's
buffer window `buf[bit_offset/8 ..][.. size+1]` with cursor 0. (The model is
functional, so the parent's `bit_offset` is untouched by construction.) -/
theorem C3_serializer_fork (s : Serializer) (size : Nat) :
    ((Serializer.fork_bytes size s).isOk = true ↔
      s.bit_offset % 8 = 0 ∧ size + 1 ≤ s.buf.length - s.bit_offset / 8) ∧
    (∀ f, Serializer.fork_bytes size s = .ok f →
      f.buf = (s.buf.drop (s.bit_offset / 8)).take (size + 1) ∧ f.bit_offset = 0) := by
  have hunfold : Serializer.fork_bytes size s =
      if s.bit_offset % 8 ≠ 0 then
        .error "Cannot fork unaligned serializer"
      else if (s.buf.drop (s.bit_offset / 8)).length < size + 1 then
        .error "The required forked buffer size exceeds the available remaining buffer space"
      else
        .ok { buf := (s.buf.drop (s.bit_offset / 8)).take (size + 1), bit_offset := 0 } :=
    rfl
  rw [hunfold]
  by_cases hal : s.bit_offset % 8 = 0
  · rw [if_neg (by simp [hal])]
    by_cases hlen : (s.buf.drop (s.bit_offset / 8)).length < size + 1
    · rw [if_pos hlen]
      rw [List.length_drop] at hlen
      constructor
      · constructor
        · intro h
          simp [Except.isOk, Except.toBool] at h
        · rintro ⟨h1, h2⟩
          omega
      · intro f hf
        simp at hf
    · rw [if_neg hlen]
      rw [List.length_drop] at hlen
      constructor
      · exact ⟨fun _ => ⟨hal, by omega⟩, fun _ => rfl⟩
      · intro f hf
        rw [← Except.ok.inj hf]
        exact ⟨rfl, rfl⟩
  · rw [if_pos (by simp [hal])]
    constructor
    · constructor
      · intro h
        simp [Except.isOk, Except.toBool] at h
      · rintro ⟨h1, _⟩
        exact absurd h1 hal
    · intro f hf
      simp at hf

/-- Witness for C3: the repository test scenario (17-byte buffer, cursor at
byte 1, fork of size 15 succeeds over the 16 remaining bytes). -/
theorem C3_witness :
    Serializer.fork_bytes 15 (Serializer.skip_bits 8 (Serializer.new 16))
      = .ok { buf := List.replicate 16 0, bit_offset := 0 } ∧
    ({ buf := List.replicate 16 0, bit_offset := 0 } : Serializer).buf
      = (((Serializer.skip_bits 8 (Serializer.new 16)).buf.drop
          ((Serializer.skip_bits 8 (Serializer.new 16)).bit_offset / 8)).take 16) ∧
    ({ buf := List.replicate 16 0, bit_offset := 0 } : Serializer).bit_offset = 0 :=
  ⟨by rfl,
   (C3_serializer_fork (Serializer.skip_bits 8 (Serializer.new 16)) 15).2
     { buf := List.replicate 16 0, bit_offset := 0 } (by rfl)⟩

/-- C4: Deserializer fork isolation. `fork_bytes(s)` fails with `ValueError`
exactly when the cursor is unaligned or `s` exceeds the remaining whole
bytes; on success the fork is a Deserializer over the parent's `s`-byte
window with cursor 0, reports `remaining_bit_length = s*8` at construction,
and zero-extends at its own `s`-byte horizon (a fetch past `s*8` bits yields
zero) independently of the parent's horizon. (The model is functional, so
the parent's cursor is untouched by construction.) -/
theorem C4_deserializer_fork (d : Deserializer) (s : Nat) :
    ((Deserializer.fork_bytes s d).isOk = true ↔
      d.bit_offset % 8 = 0 ∧ (s : Int) ≤ d.remaining_bit_length / 8) ∧
    (∀ f, Deserializer.fork_bytes s d = .ok f →
      f.buf.buf = (d.buf.buf.drop (d.bit_offset / 8)).take s ∧
      f.bit_offset = 0 ∧
      f.buf.buf.length = s ∧
      f.remaining_bit_length = 8 * s ∧
      ((∀ b ∈ d.buf.buf, b < 256) → ∀ w, 1 ≤ w →
        (Deserializer.fetch_unaligned_unsigned w
          (Deserializer.skip_bits (8 * s) f)).1 = 0)) := by
  by_cases hal : d.bit_offset % 8 = 0
  · have hrem : d.remaining_bit_length / 8
        = (d.buf.buf.length : Int) - (d.bit_offset / 8 : Nat) := by
      rw [Deserializer.remaining_bit_length, ZeroExtendingBuffer.bit_length]
      have hoff : d.bit_offset = 8 * (d.bit_offset / 8) := by omega
      rw [show ((d.buf.buf.length * 8 : Nat) : Int) - (d.bit_offset : Int)
          = 8 * ((d.buf.buf.length : Int) - (d.bit_offset / 8 : Nat)) from by
        push_cast
        omega]
      exact Int.mul_ediv_cancel_left _ (by norm_num)
    by_cases hsize : d.remaining_bit_length / 8 < (s : Int)
    · have hunfold : Deserializer.fork_bytes s d =
          .error "Invalid usage: the required forked buffer size exceeds the remaining buffer space" := by
        rw [Deserializer.fork_bytes, if_neg (by simp [hal]), if_pos hsize]
      rw [hunfold]
      constructor
      · constructor
        · intro h
          simp [Except.isOk, Except.toBool] at h
        · rintro ⟨_, h2⟩
          omega
      · intro f hf
        simp at hf
    · have hle : (s : Int) ≤ d.remaining_bit_length / 8 := by omega
      have hcap : d.bit_offset / 8 + s ≤ d.buf.buf.length := by
        rw [hrem] at hle
        omega
      have hinner : d.buf.fork_bytes d.byte_offset s
          = .ok [(d.buf.buf.drop (d.bit_offset / 8)).take s] := by
        rw [ZeroExtendingBuffer.fork_bytes,
          if_neg (by
            show ¬(d.byte_offset + s > d.buf.buf.length)
            exact not_lt.mpr hcap)]
        rfl
      have hunfold : Deserializer.fork_bytes s d
          = .ok (Deserializer.new [(d.buf.buf.drop (d.bit_offset / 8)).take s]) := by
        rw [Deserializer.fork_bytes, if_neg (by simp [hal]), if_neg (by omega)]
        rw [hinner]
        rfl
      rw [hunfold]
      have hwbuf : (Deserializer.new
          [(d.buf.buf.drop (d.bit_offset / 8)).take s]).buf.buf
          = (d.buf.buf.drop (d.bit_offset / 8)).take s := new_single_buf _
      have hwlen : ((d.buf.buf.drop (d.bit_offset / 8)).take s).length = s := by
        rw [List.length_take, List.length_drop]
        omega
      constructor
      · exact ⟨fun _ => ⟨hal, hle⟩, fun _ => rfl⟩
      · intro f hf
        rw [← Except.ok.inj hf]
        refine ⟨hwbuf, rfl, by rw [hwbuf, hwlen], ?_, ?_⟩
        · rw [Deserializer.remaining_bit_length, ZeroExtendingBuffer.bit_length, hwbuf,
            hwlen]
          show ((s * 8 : Nat) : Int) - ((0 : Nat) : Int) = 8 * s
          push_cast
          ring
        · intro hz w hw
          apply fetch_unaligned_unsigned_exhausted w _ hw
          · intro b hb
            rw [show (Deserializer.skip_bits (8 * s)
                (Deserializer.new [(d.buf.buf.drop (d.bit_offset / 8)).take s])).buf.buf
                = (d.buf.buf.drop (d.bit_offset / 8)).take s from hwbuf] at hb
            exact hz b (List.mem_of_mem_drop (List.mem_of_mem_take hb))
          · show 8 * (Deserializer.skip_bits (8 * s)
                (Deserializer.new [(d.buf.buf.drop (d.bit_offset / 8)).take s])).buf.buf.length
              ≤ _
            rw [show (Deserializer.skip_bits (8 * s)
                (Deserializer.new [(d.buf.buf.drop (d.bit_offset / 8)).take s])).buf.buf
                = (d.buf.buf.drop (d.bit_offset / 8)).take s from hwbuf, hwlen]
            show 8 * s ≤ 0 + 8 * s
            omega
  · have hunfold : Deserializer.fork_bytes s d
        = .error "Cannot fork unaligned deserializer" := by
      rw [Deserializer.fork_bytes, if_pos (by simp [hal])]
    rw [hunfold]
    constructor
    · constructor
      · intro h
        simp [Except.isOk, Except.toBool] at h
      · rintro ⟨h1, _⟩
        exact absurd h1 hal
    · intro f hf
      simp at hf

/-- Witness for C4: forking 2 bytes of a 3-byte aligned deserializer. -/
theorem C4_witness :
    Deserializer.fork_bytes 2 (Deserializer.new [[1, 2, 3]])
      = .ok (Deserializer.new [[1, 2]]) ∧
    ((Deserializer.new [[1, 2]]).buf.buf
      = (((Deserializer.new [[1, 2, 3]]).buf.buf.drop 0).take 2) ∧
     (Deserializer.new [[1, 2]]).bit_offset = 0 ∧
     (Deserializer.new [[1, 2]]).buf.buf.length = 2 ∧
     (Deserializer.new [[1, 2]]).remaining_bit_length = 8 * 2 ∧
     ((∀ b ∈ (Deserializer.new [[1, 2, 3]]).buf.buf, b < 256) → ∀ w, 1 ≤ w →
       (Deserializer.fetch_unaligned_unsigned w
         (Deserializer.skip_bits (8 * 2) (Deserializer.new [[1, 2]]))).1 = 0)) :=
  ⟨by rfl,
   (C4_deserializer_fork (Deserializer.new [[1, 2, 3]]) 2).2
     (Deserializer.new [[1, 2]]) (by rfl)⟩

/-- C8: Unaligned byte-pack invariant. For every byte sequence `B` and every
starting bit offset `k ∈ [0, 7]`, a Serializer that writes `k` dummy bits
(`add_unaligned_bit False`, as `pad_to_alignment` does) and then
`add_unaligned_bytes(B)` produces exactly the bit content of the aligned
write `add_aligned_bytes(B)` at offset 0 shifted left by `k` bits: the
unaligned path writes exactly the bits of `B` starting at bit position `k`. -/
theorem C8_unaligned_byte_pack (n k : Nat) (B : List Nat) (hk : k < 8)
    (hB : ∀ b ∈ B, b < 256) (hcap : B.length + 1 ≤ n) :
    bytesNat (Serializer.add_unaligned_bytes B (addDummyBits k (Serializer.new n))).buf
      = bytesNat (Serializer.add_aligned_bytes B (Serializer.new n)).buf * 2 ^ k ∧
    (Serializer.add_unaligned_bytes B (addDummyBits k (Serializer.new n))).bit_offset
      = (Serializer.add_aligned_bytes B (Serializer.new n)).bit_offset + k := by
  obtain ⟨hd1, hd2⟩ := addDummyBits_spec k (Serializer.new n)
  have hnewbuf : (Serializer.new n).buf = List.replicate (n + 1) 0 := rfl
  have hnewoff : (Serializer.new n).bit_offset = 0 := rfl
  rw [hnewbuf] at hd1
  rw [hnewoff] at hd2
  have hdlen : (addDummyBits k (Serializer.new n)).buf.length = n + 1 := by
    rw [hd1, List.length_replicate]
  obtain ⟨ho, hl, hm, hv⟩ := Serializer.add_unaligned_bytes_spec B
    (addDummyBits k (Serializer.new n))
    hB
    (by
      rw [hd1]
      intro x hx
      have := List.eq_of_mem_replicate hx
      omega)
    (by
      rw [hd1, bytesNat_replicate_zero]
      exact Nat.two_pow_pos _)
    (by
      rw [hdlen, hd2]
      have : (0 + k) / 8 = 0 := by omega
      omega)
  obtain ⟨wl, wm, wv⟩ := Serializer.writeBytesAt_spec B (Serializer.new n).buf 0
    (by
      rw [hnewbuf]
      intro x hx
      have := List.eq_of_mem_replicate hx
      omega)
    hB
    (by
      rw [hnewbuf, bytesNat_replicate_zero]
      norm_num)
    (by
      rw [hnewbuf, List.length_replicate]
      omega)
  have hvA : bytesNat (Serializer.add_aligned_bytes B (Serializer.new n)).buf
      = bytesNat B := by
    show bytesNat (Serializer.writeBytesAt (Serializer.new n).buf
      (Serializer.new n).byte_offset B) = bytesNat B
    rw [show (Serializer.new n).byte_offset = 0 from by
        simp [Serializer.byte_offset, Serializer.new], wv, hnewbuf,
      bytesNat_replicate_zero, pow_zero]
    omega
  constructor
  · rw [hv, hd1, hd2, bytesNat_replicate_zero, hvA]
    simp
  · rw [ho, hd2]
    show 0 + k + 8 * B.length = (Serializer.new n).bit_offset + B.length * 8 + k
    rw [hnewoff]
    ring

/-- Witness for C8 at `B = [0x12, 0x34]`, `k = 3`. -/
theorem C8_witness :
    (3 < 8 ∧ (∀ b ∈ [0x12, 0x34], b < 256) ∧ [0x12, 0x34].length + 1 ≤ 4) ∧
    bytesNat (Serializer.add_unaligned_bytes [0x12, 0x34]
        (addDummyBits 3 (Serializer.new 4))).buf
      = bytesNat (Serializer.add_aligned_bytes [0x12, 0x34] (Serializer.new 4)).buf
          * 2 ^ 3 :=
  ⟨⟨by decide, by decide, by decide⟩,
   (C8_unaligned_byte_pack 4 3 [0x12, 0x34] (by decide) (by decide) (by decide)).1⟩

/-- The Python float literal `99999.9` is exactly the rational `999999/10`.
(Stated via `Rat.mk'` so that the kernel can evaluate the encoder on it.) -/
def q99999_9 : ℚ := Rat.mk' 999999 10 (by norm_num) (by norm_num)

theorem q99999_9_eq : q99999_9 = 999999 / 10 := by
  rw [q99999_9, Rat.mk'_eq_divInt, Rat.divInt_eq_div]
  norm_num

/-- C7: Float saturation. For every float width (16/32/64 bits), when the
supplied finite value is out of the representable range (`struct.pack`
raises `OverflowError`, i.e. `encodePattern` returns an error), the write
does not fail: it writes the bit pattern of `+Inf` for positive input and
`-Inf` for negative input of that width. In particular
`add_aligned_f16(99999.9)` writes the two bytes `00 7C` (binary16 `0x7C00`,
which decodes to `+Inf`). -/
theorem C7_float_saturation :
    (∀ (fmt : FloatFmt) (q : ℚ), 0 < q → encodePattern fmt (.finite q) = .error () →
      float_to_bytes fmt (.finite q)
        = Serializer.natLEBytes ((2 ^ fmt.ebits - 1) <<< fmt.mbits) fmt.bytes) ∧
    (∀ (fmt : FloatFmt) (q : ℚ), q < 0 → encodePattern fmt (.finite q) = .error () →
      float_to_bytes fmt (.finite q)
        = Serializer.natLEBytes
            (1 <<< (fmt.mbits + fmt.ebits) ||| (2 ^ fmt.ebits - 1) <<< fmt.mbits)
            fmt.bytes) ∧
    decodePattern .e 0x7C00 = .inf ∧
    decodePattern .e 0xFC00 = .neginf ∧
    float_to_bytes .e (.finite (999999 / 10 : ℚ)) = [0x00, 0x7C] ∧
    (Serializer.add_aligned_f16 (.finite (999999 / 10 : ℚ)) (Serializer.new 2)).buf
      = [0x00, 0x7C, 0] := by
  refine ⟨?_, ?_, by decide, by decide, by rw [← q99999_9_eq]; decide,
    by rw [← q99999_9_eq]; decide⟩
  · intro fmt q hq herr
    have hpos : (PyFloat.finite q).isPositive = true := by
      simp [PyFloat.isPositive, hq]
    rw [float_to_bytes, herr, hpos]
    simp [encodePattern]
  · intro fmt q hq herr
    have hpos : (PyFloat.finite q).isPositive = false := by
      simp [PyFloat.isPositive]
      exact le_of_lt hq
    rw [float_to_bytes, herr, hpos]
    simp [encodePattern]

/-- Witness for C7 at the spec's input `99999.9` in binary16. -/
theorem C7_witness :
    (0 : ℚ) < 999999 / 10 ∧
    encodePattern .e (.finite (999999 / 10 : ℚ)) = .error () ∧
    float_to_bytes .e (.finite (999999 / 10 : ℚ))
      = Serializer.natLEBytes ((2 ^ FloatFmt.e.ebits - 1) <<< FloatFmt.e.mbits)
          FloatFmt.e.bytes :=
  ⟨by norm_num, by rw [← q99999_9_eq]; rfl,
   C7_float_saturation.1 FloatFmt.e (999999 / 10 : ℚ) (by norm_num)
     (by rw [← q99999_9_eq]; rfl)⟩

/-! ### Behavior of every fetch operation past the end of the input -/

theorem bytesNat_lt_two_pow_offset (d : Deserializer)
    (hz : ∀ b ∈ d.buf.buf, b < 256) (hex : 8 * d.buf.buf.length ≤ d.bit_offset) :
    bytesNat d.buf.buf < 2 ^ d.bit_offset := by
  have h2 : bytesNat d.buf.buf < 256 ^ d.buf.buf.length := bytesNat_lt _ hz
  have h3 : (256 : Nat) ^ d.buf.buf.length = 2 ^ (8 * d.buf.buf.length) := by
    rw [show (256 : Nat) = 2 ^ 8 from by norm_num, ← pow_mul]
  have h4 : (2 : Nat) ^ (8 * d.buf.buf.length) ≤ 2 ^ d.bit_offset :=
    Nat.pow_le_pow_right (by norm_num) hex
  omega

theorem fetch_aligned_u8_ex (d : Deserializer)
    (hex : 8 * d.buf.buf.length ≤ d.bit_offset) :
    Deserializer.fetch_aligned_u8 d = (0, { d with bit_offset := d.bit_offset + 8 }) := by
  have hbo : d.buf.buf.length ≤ d.byte_offset := by
    show d.buf.buf.length ≤ d.bit_offset / 8
    omega
  rw [Deserializer.fetch_aligned_u8, get_byte_past_end _ _ hbo]

theorem fetch_aligned_u16_ex (d : Deserializer)
    (hex : 8 * d.buf.buf.length ≤ d.bit_offset) :
    Deserializer.fetch_aligned_u16 d = (0, { d with bit_offset := d.bit_offset + 16 }) := by
  have e1 := fetch_aligned_u8_ex d hex
  have e2 := fetch_aligned_u8_ex { d with bit_offset := d.bit_offset + 8 }
    (by simp only []; omega)
  simp only [Deserializer.fetch_aligned_u16, e1, e2, Nat.zero_shiftLeft, Nat.zero_or]

theorem fetch_aligned_u32_ex (d : Deserializer)
    (hex : 8 * d.buf.buf.length ≤ d.bit_offset) :
    Deserializer.fetch_aligned_u32 d = (0, { d with bit_offset := d.bit_offset + 32 }) := by
  have e1 := fetch_aligned_u16_ex d hex
  have e2 := fetch_aligned_u16_ex { d with bit_offset := d.bit_offset + 16 }
    (by simp only []; omega)
  simp only [Deserializer.fetch_aligned_u32, e1, e2, Nat.zero_shiftLeft, Nat.zero_or]

theorem fetch_aligned_u64_ex (d : Deserializer)
    (hex : 8 * d.buf.buf.length ≤ d.bit_offset) :
    Deserializer.fetch_aligned_u64 d = (0, { d with bit_offset := d.bit_offset + 64 }) := by
  have e1 := fetch_aligned_u32_ex d hex
  have e2 := fetch_aligned_u32_ex { d with bit_offset := d.bit_offset + 32 }
    (by simp only []; omega)
  simp only [Deserializer.fetch_aligned_u64, e1, e2, Nat.zero_shiftLeft, Nat.zero_or]

theorem fetch_aligned_unsigned_ex (w : Nat) (d : Deserializer) (hw : 1 ≤ w)
    (hz : ∀ b ∈ d.buf.buf, b < 256) (hex : 8 * d.buf.buf.length ≤ d.bit_offset) :
    Deserializer.fetch_aligned_unsigned w d
      = (0, { d with bit_offset := d.bit_offset + w }) := by
  refine Prod.ext ?_ (Deserializer.fetch_aligned_unsigned_spec w d hw hz).2
  rw [(Deserializer.fetch_aligned_unsigned_spec w d hw hz).1]
  have h2 : bytesNat d.buf.buf < 256 ^ (d.bit_offset / 8) := by
    have h3 : bytesNat d.buf.buf < 256 ^ d.buf.buf.length := bytesNat_lt _ hz
    have h4 : (256 : Nat) ^ d.buf.buf.length ≤ 256 ^ (d.bit_offset / 8) :=
      Nat.pow_le_pow_right (by norm_num) (by omega)
    omega
  rw [Nat.div_eq_of_lt h2, Nat.zero_mod]

theorem fetch_unaligned_unsigned_ex (w : Nat) (d : Deserializer) (hw : 1 ≤ w)
    (hz : ∀ b ∈ d.buf.buf, b < 256) (hex : 8 * d.buf.buf.length ≤ d.bit_offset) :
    Deserializer.fetch_unaligned_unsigned w d
      = (0, { d with bit_offset := d.bit_offset + w }) :=
  Prod.ext (fetch_unaligned_unsigned_exhausted w d hw hz hex)
    (Deserializer.fetch_unaligned_unsigned_spec w d hw hz).2

theorem fetch_aligned_bytes_ex (c : Nat) (d : Deserializer)
    (hex : 8 * d.buf.buf.length ≤ d.bit_offset) :
    Deserializer.fetch_aligned_bytes c d
      = (List.replicate c 0, { d with bit_offset := d.bit_offset + c * 8 }) := by
  rw [Deserializer.fetch_aligned_bytes,
    slice_past_end _ _ _ (show d.buf.buf.length ≤ d.byte_offset from by
      show d.buf.buf.length ≤ d.bit_offset / 8
      omega),
    show d.byte_offset + c - d.byte_offset = c from by omega]

theorem fetch_unaligned_bytes_ex (c : Nat) (d : Deserializer)
    (hz : ∀ b ∈ d.buf.buf, b < 256) (hex : 8 * d.buf.buf.length ≤ d.bit_offset) :
    Deserializer.fetch_unaligned_bytes c d
      = (List.replicate c 0, { d with bit_offset := d.bit_offset + 8 * c }) := by
  obtain ⟨hl, hm, hv, hs⟩ := Deserializer.fetch_unaligned_bytes_spec c d hz
  refine Prod.ext ?_ hs
  show (Deserializer.fetch_unaligned_bytes c d).1 = _
  rw [List.eq_replicate_iff]
  refine ⟨hl, ?_⟩
  intro b hb
  have h0 : bytesNat (Deserializer.fetch_unaligned_bytes c d).1 = 0 := by
    rw [hv, Nat.div_eq_of_lt (bytesNat_lt_two_pow_offset d hz hex), Nat.zero_mod]
  exact (bytesNat_eq_zero_iff _).mp h0 b hb

theorem fetch_aligned_array_of_bits_ex (c : Nat) (d : Deserializer)
    (hex : 8 * d.buf.buf.length ≤ d.bit_offset) :
    Deserializer.fetch_aligned_array_of_bits c d
      = (List.replicate c false, { d with bit_offset := d.bit_offset + c }) := by
  rw [Deserializer.fetch_aligned_array_of_bits,
    slice_past_end _ _ _ (show d.buf.buf.length ≤ d.byte_offset from by
      show d.buf.buf.length ≤ d.bit_offset / 8
      omega),
    show d.byte_offset + (c + 7) / 8 - d.byte_offset = (c + 7) / 8 from by omega,
    unpackbits_replicate_zero, List.take_replicate]
  rw [show min c ((c + 7) / 8 * 8) = c from by omega]

theorem fetch_unaligned_array_of_bits_ex (c : Nat) (d : Deserializer)
    (hz : ∀ b ∈ d.buf.buf, b < 256) (hex : 8 * d.buf.buf.length ≤ d.bit_offset) :
    Deserializer.fetch_unaligned_array_of_bits c d
      = (List.replicate c false, { d with bit_offset := d.bit_offset + c }) := by
  have hb := fetch_unaligned_bytes_ex ((c + 7) / 8) d hz hex
  simp only [Deserializer.fetch_unaligned_array_of_bits, hb,
    unpackbits_replicate_zero, List.take_replicate]
  rw [show min c ((c + 7) / 8 * 8) = c from by omega,
    show d.bit_offset + 8 * ((c + 7) / 8) - ((c + 7) / 8 * 8 - c) = d.bit_offset + c
      from by omega]

theorem fetch_unaligned_bit_ex (d : Deserializer)
    (hex : 8 * d.buf.buf.length ≤ d.bit_offset) :
    Deserializer.fetch_unaligned_bit d
      = (false, { d with bit_offset := d.bit_offset + 1 }) := by
  rw [Deserializer.fetch_unaligned_bit]
  have h0 : d.buf.get_byte d.byte_offset = 0 :=
    get_byte_past_end _ _ (show d.buf.buf.length ≤ d.bit_offset / 8 from by omega)
  rw [h0]
  have hne : (0 : Nat) ≠ 1 <<< (d.bit_offset % 8) := by
    rw [Nat.shiftLeft_eq, Nat.one_mul]
    have := Nat.two_pow_pos (d.bit_offset % 8)
    omega
  simp [hne]

/-- `decodePattern` of the all-zero pattern is `+0.0`. -/
theorem decodePattern_zero (fmt : FloatFmt) (he : 1 ≤ fmt.ebits) :
    decodePattern fmt 0 = .finite 0 := by
  rw [decodePattern]
  have h2 : (2 : Nat) ^ fmt.ebits - 1 ≠ 0 := by
    have h3 : (2 : Nat) ^ 1 ≤ 2 ^ fmt.ebits := Nat.pow_le_pow_right (by norm_num) he
    omega
  simp only [Nat.zero_mod, Nat.zero_div, if_neg (Ne.symm h2), if_pos rfl]
  norm_num

theorem fetch_aligned_i8_ex (d : Deserializer)
    (hex : 8 * d.buf.buf.length ≤ d.bit_offset) :
    Deserializer.fetch_aligned_i8 d = (0, { d with bit_offset := d.bit_offset + 8 }) := by
  simp [Deserializer.fetch_aligned_i8, fetch_aligned_u8_ex d hex]

theorem fetch_aligned_i16_ex (d : Deserializer)
    (hex : 8 * d.buf.buf.length ≤ d.bit_offset) :
    Deserializer.fetch_aligned_i16 d = (0, { d with bit_offset := d.bit_offset + 16 }) := by
  simp [Deserializer.fetch_aligned_i16, fetch_aligned_u16_ex d hex]

theorem fetch_aligned_i32_ex (d : Deserializer)
    (hex : 8 * d.buf.buf.length ≤ d.bit_offset) :
    Deserializer.fetch_aligned_i32 d = (0, { d with bit_offset := d.bit_offset + 32 }) := by
  simp [Deserializer.fetch_aligned_i32, fetch_aligned_u32_ex d hex]

theorem fetch_aligned_i64_ex (d : Deserializer)
    (hex : 8 * d.buf.buf.length ≤ d.bit_offset) :
    Deserializer.fetch_aligned_i64 d = (0, { d with bit_offset := d.bit_offset + 64 }) := by
  simp [Deserializer.fetch_aligned_i64, fetch_aligned_u64_ex d hex]

theorem fetch_aligned_signed_ex (w : Nat) (d : Deserializer) (hw : 1 ≤ w)
    (hz : ∀ b ∈ d.buf.buf, b < 256) (hex : 8 * d.buf.buf.length ≤ d.bit_offset) :
    Deserializer.fetch_aligned_signed w d
      = (0, { d with bit_offset := d.bit_offset + w }) := by
  have h2 : ¬(2 ^ (w - 1) ≤ 0) := by
    have := Nat.two_pow_pos (w - 1)
    omega
  simp [Deserializer.fetch_aligned_signed, fetch_aligned_unsigned_ex w d hw hz hex, h2]

theorem fetch_unaligned_signed_ex (w : Nat) (d : Deserializer) (hw : 1 ≤ w)
    (hz : ∀ b ∈ d.buf.buf, b < 256) (hex : 8 * d.buf.buf.length ≤ d.bit_offset) :
    Deserializer.fetch_unaligned_signed w d
      = (0, { d with bit_offset := d.bit_offset + w }) := by
  have h2 : ¬(2 ^ (w - 1) ≤ 0) := by
    have := Nat.two_pow_pos (w - 1)
    omega
  simp [Deserializer.fetch_unaligned_signed, fetch_unaligned_unsigned_ex w d hw hz hex, h2]

theorem fetch_aligned_f16_ex (d : Deserializer)
    (hex : 8 * d.buf.buf.length ≤ d.bit_offset) :
    Deserializer.fetch_aligned_f16 d
      = (.finite 0, { d with bit_offset := d.bit_offset + 16 }) := by
  simp [Deserializer.fetch_aligned_f16, fetch_aligned_bytes_ex 2 d hex,
    bytesNat_replicate_zero, decodePattern_zero FloatFmt.e (by norm_num [FloatFmt.e])]
  rw [show bytesNat [0, 0] = 0 from rfl,
    decodePattern_zero FloatFmt.e (by norm_num [FloatFmt.e])]

theorem fetch_aligned_f32_ex (d : Deserializer)
    (hex : 8 * d.buf.buf.length ≤ d.bit_offset) :
    Deserializer.fetch_aligned_f32 d
      = (.finite 0, { d with bit_offset := d.bit_offset + 32 }) := by
  simp [Deserializer.fetch_aligned_f32, fetch_aligned_bytes_ex 4 d hex,
    bytesNat_replicate_zero, decodePattern_zero FloatFmt.f (by norm_num [FloatFmt.f])]
  rw [show bytesNat [0, 0, 0, 0] = 0 from rfl,
    decodePattern_zero FloatFmt.f (by norm_num [FloatFmt.f])]

theorem fetch_aligned_f64_ex (d : Deserializer)
    (hex : 8 * d.buf.buf.length ≤ d.bit_offset) :
    Deserializer.fetch_aligned_f64 d
      = (.finite 0, { d with bit_offset := d.bit_offset + 64 }) := by
  simp [Deserializer.fetch_aligned_f64, fetch_aligned_bytes_ex 8 d hex,
    bytesNat_replicate_zero, decodePattern_zero FloatFmt.d (by norm_num [FloatFmt.d])]
  rw [show bytesNat [0, 0, 0, 0, 0, 0, 0, 0] = 0 from rfl,
    decodePattern_zero FloatFmt.d (by norm_num [FloatFmt.d])]

theorem fetch_unaligned_f16_ex (d : Deserializer)
    (hz : ∀ b ∈ d.buf.buf, b < 256) (hex : 8 * d.buf.buf.length ≤ d.bit_offset) :
    Deserializer.fetch_unaligned_f16 d
      = (.finite 0, { d with bit_offset := d.bit_offset + 16 }) := by
  simp [Deserializer.fetch_unaligned_f16, fetch_unaligned_bytes_ex 2 d hz hex,
    bytesNat_replicate_zero, decodePattern_zero FloatFmt.e (by norm_num [FloatFmt.e])]
  rw [show bytesNat [0, 0] = 0 from rfl,
    decodePattern_zero FloatFmt.e (by norm_num [FloatFmt.e])]

theorem fetch_unaligned_f32_ex (d : Deserializer)
    (hz : ∀ b ∈ d.buf.buf, b < 256) (hex : 8 * d.buf.buf.length ≤ d.bit_offset) :
    Deserializer.fetch_unaligned_f32 d
      = (.finite 0, { d with bit_offset := d.bit_offset + 32 }) := by
  simp [Deserializer.fetch_unaligned_f32, fetch_unaligned_bytes_ex 4 d hz hex,
    bytesNat_replicate_zero, decodePattern_zero FloatFmt.f (by norm_num [FloatFmt.f])]
  rw [show bytesNat [0, 0, 0, 0] = 0 from rfl,
    decodePattern_zero FloatFmt.f (by norm_num [FloatFmt.f])]

theorem fetch_unaligned_f64_ex (d : Deserializer)
    (hz : ∀ b ∈ d.buf.buf, b < 256) (hex : 8 * d.buf.buf.length ≤ d.bit_offset) :
    Deserializer.fetch_unaligned_f64 d
      = (.finite 0, { d with bit_offset := d.bit_offset + 64 }) := by
  simp [Deserializer.fetch_unaligned_f64, fetch_unaligned_bytes_ex 8 d hz hex,
    bytesNat_replicate_zero, decodePattern_zero FloatFmt.d (by norm_num [FloatFmt.d])]
  rw [show bytesNat [0, 0, 0, 0, 0, 0, 0, 0] = 0 from rfl,
    decodePattern_zero FloatFmt.d (by norm_num [FloatFmt.d])]

theorem chunk_of_replicate_zero (m i c : Nat) :
    bytesNat (((List.replicate m (0 : Nat)).drop i).take c) = 0 := by
  rw [List.drop_replicate, List.take_replicate, bytesNat_replicate_zero]

theorem fetch_aligned_prims_ex (itemsize count : Nat) (d : Deserializer)
    (hex : 8 * d.buf.buf.length ≤ d.bit_offset) :
    Deserializer.fetch_aligned_array_of_standard_bit_length_primitives itemsize count d
      = (List.replicate count 0,
         { d with bit_offset := d.bit_offset + count * itemsize * 8 }) := by
  have hbo : d.buf.buf.length ≤ d.byte_offset := by
    show d.buf.buf.length ≤ d.bit_offset / 8
    omega
  rw [Deserializer.fetch_aligned_array_of_standard_bit_length_primitives,
    slice_past_end _ _ _ hbo]
  refine Prod.ext ?_ rfl
  show (List.range count).map _ = List.replicate count 0
  rw [List.eq_replicate_iff]
  refine ⟨by simp, ?_⟩
  intro b hb
  simp only [List.mem_map] at hb
  obtain ⟨j, _, hj⟩ := hb
  rw [chunk_of_replicate_zero] at hj
  exact hj.symm

theorem fetch_unaligned_prims_ex (itemsize count : Nat) (d : Deserializer)
    (hz : ∀ b ∈ d.buf.buf, b < 256) (hex : 8 * d.buf.buf.length ≤ d.bit_offset) :
    Deserializer.fetch_unaligned_array_of_standard_bit_length_primitives itemsize count d
      = (List.replicate count 0,
         { d with bit_offset := d.bit_offset + 8 * (itemsize * count) }) := by
  rw [Deserializer.fetch_unaligned_array_of_standard_bit_length_primitives,
    fetch_unaligned_bytes_ex (itemsize * count) d hz hex]
  refine Prod.ext ?_ rfl
  show (List.range count).map _ = List.replicate count 0
  rw [List.eq_replicate_iff]
  refine ⟨by simp, ?_⟩
  intro b hb
  simp only [List.mem_map] at hb
  obtain ⟨j, _, hj⟩ := hb
  rw [chunk_of_replicate_zero] at hj
  exact hj.symm

/-- C2: Implicit zero extension. For a Deserializer over an `n`-byte input,
every fetch operation invoked when `remaining_bit_length ≤ 0` raises no error
and returns the zero value of its return type — `0` for the integer fetches
(unsigned and signed, standard and arbitrary width, aligned and unaligned),
`0.0` for the float fetches, all-`False` for bit arrays, all-zero for byte
arrays and primitive arrays — while the cursor still advances by the fetched
width, so `remaining_bit_length` (`= bit_length - bit_offset`) becomes
appropriately negative (final two conjuncts). -/
theorem C2_implicit_zero_extension (d : Deserializer)
    (hrem : d.remaining_bit_length ≤ 0) (hz : ∀ b ∈ d.buf.buf, b < 256) :
    Deserializer.fetch_aligned_u8 d = (0, { d with bit_offset := d.bit_offset + 8 }) ∧
    Deserializer.fetch_aligned_u16 d = (0, { d with bit_offset := d.bit_offset + 16 }) ∧
    Deserializer.fetch_aligned_u32 d = (0, { d with bit_offset := d.bit_offset + 32 }) ∧
    Deserializer.fetch_aligned_u64 d = (0, { d with bit_offset := d.bit_offset + 64 }) ∧
    Deserializer.fetch_aligned_i8 d = (0, { d with bit_offset := d.bit_offset + 8 }) ∧
    Deserializer.fetch_aligned_i16 d = (0, { d with bit_offset := d.bit_offset + 16 }) ∧
    Deserializer.fetch_aligned_i32 d = (0, { d with bit_offset := d.bit_offset + 32 }) ∧
    Deserializer.fetch_aligned_i64 d = (0, { d with bit_offset := d.bit_offset + 64 }) ∧
    (∀ w, 1 ≤ w → Deserializer.fetch_aligned_unsigned w d
      = (0, { d with bit_offset := d.bit_offset + w })) ∧
    (∀ w, 1 ≤ w → Deserializer.fetch_aligned_signed w d
      = (0, { d with bit_offset := d.bit_offset + w })) ∧
    (∀ w, 1 ≤ w → Deserializer.fetch_unaligned_unsigned w d
      = (0, { d with bit_offset := d.bit_offset + w })) ∧
    (∀ w, 1 ≤ w → Deserializer.fetch_unaligned_signed w d
      = (0, { d with bit_offset := d.bit_offset + w })) ∧
    (∀ c, Deserializer.fetch_aligned_bytes c d
      = (List.replicate c 0, { d with bit_offset := d.bit_offset + c * 8 })) ∧
    (∀ c, Deserializer.fetch_unaligned_bytes c d
      = (List.replicate c 0, { d with bit_offset := d.bit_offset + 8 * c })) ∧
    (∀ c, Deserializer.fetch_aligned_array_of_bits c d
      = (List.replicate c false, { d with bit_offset := d.bit_offset + c })) ∧
    (∀ c, Deserializer.fetch_unaligned_array_of_bits c d
      = (List.replicate c false, { d with bit_offset := d.bit_offset + c })) ∧
    Deserializer.fetch_unaligned_bit d
      = (false, { d with bit_offset := d.bit_offset + 1 }) ∧
    Deserializer.fetch_aligned_f16 d
      = (.finite 0, { d with bit_offset := d.bit_offset + 16 }) ∧
    Deserializer.fetch_aligned_f32 d
      = (.finite 0, { d with bit_offset := d.bit_offset + 32 }) ∧
    Deserializer.fetch_aligned_f64 d
      = (.finite 0, { d with bit_offset := d.bit_offset + 64 }) ∧
    Deserializer.fetch_unaligned_f16 d
      = (.finite 0, { d with bit_offset := d.bit_offset + 16 }) ∧
    Deserializer.fetch_unaligned_f32 d
      = (.finite 0, { d with bit_offset := d.bit_offset + 32 }) ∧
    Deserializer.fetch_unaligned_f64 d
      = (.finite 0, { d with bit_offset := d.bit_offset + 64 }) ∧
    (∀ itemsize count,
      Deserializer.fetch_aligned_array_of_standard_bit_length_primitives itemsize count d
        = (List.replicate count 0,
           { d with bit_offset := d.bit_offset + count * itemsize * 8 })) ∧
    (∀ itemsize count,
      Deserializer.fetch_unaligned_array_of_standard_bit_length_primitives itemsize count d
        = (List.replicate count 0,
           { d with bit_offset := d.bit_offset + 8 * (itemsize * count) })) ∧
    (Deserializer.fetch_aligned_u8 d).2.remaining_bit_length
      = d.remaining_bit_length - 8 ∧
    (Deserializer.fetch_aligned_u8 d).2.remaining_bit_length < 0 := by
  have hex : 8 * d.buf.buf.length ≤ d.bit_offset := by
    rw [Deserializer.remaining_bit_length, ZeroExtendingBuffer.bit_length] at hrem
    omega
  have hrm : (Deserializer.fetch_aligned_u8 d).2.remaining_bit_length
      = d.remaining_bit_length - 8 := by
    rw [fetch_aligned_u8_ex d hex]
    show ((d.buf.bit_length : Int) - ((d.bit_offset + 8 : Nat) : Int)) = _
    rw [Deserializer.remaining_bit_length]
    push_cast
    ring
  refine ⟨fetch_aligned_u8_ex d hex, fetch_aligned_u16_ex d hex,
    fetch_aligned_u32_ex d hex, fetch_aligned_u64_ex d hex,
    fetch_aligned_i8_ex d hex, fetch_aligned_i16_ex d hex,
    fetch_aligned_i32_ex d hex, fetch_aligned_i64_ex d hex,
    fun w hw => fetch_aligned_unsigned_ex w d hw hz hex,
    fun w hw => fetch_aligned_signed_ex w d hw hz hex,
    fun w hw => fetch_unaligned_unsigned_ex w d hw hz hex,
    fun w hw => fetch_unaligned_signed_ex w d hw hz hex,
    fun c => fetch_aligned_bytes_ex c d hex,
    fun c => fetch_unaligned_bytes_ex c d hz hex,
    fun c => fetch_aligned_array_of_bits_ex c d hex,
    fun c => fetch_unaligned_array_of_bits_ex c d hz hex,
    fetch_unaligned_bit_ex d hex,
    fetch_aligned_f16_ex d hex, fetch_aligned_f32_ex d hex, fetch_aligned_f64_ex d hex,
    fetch_unaligned_f16_ex d hz hex, fetch_unaligned_f32_ex d hz hex,
    fetch_unaligned_f64_ex d hz hex,
    fun itemsize count => fetch_aligned_prims_ex itemsize count d hex,
    fun itemsize count => fetch_unaligned_prims_ex itemsize count d hz hex,
    hrm, ?_⟩
  rw [hrm]
  omega

/-- Witness for C2: a 3-byte input fully consumed (the repository's own
zero-extension test scenario). -/
theorem C2_witness :
    (Deserializer.skip_bits 24 (Deserializer.new [[1, 2, 3]])).remaining_bit_length ≤ 0 ∧
    Deserializer.fetch_aligned_u8 (Deserializer.skip_bits 24 (Deserializer.new [[1, 2, 3]]))
      = (0, { Deserializer.skip_bits 24 (Deserializer.new [[1, 2, 3]]) with
              bit_offset := (Deserializer.skip_bits 24 (Deserializer.new [[1, 2, 3]])).bit_offset
                + 8 }) :=
  ⟨by decide,
   (C2_implicit_zero_extension (Deserializer.skip_bits 24 (Deserializer.new [[1, 2, 3]]))
     (by decide) (by decide)).1⟩

/-! ### Round-trip lemmas -/

theorem roundtrip_unsigned_aux (n k w v : Nat) (hw : 1 ≤ w) (hk : k < 8)
    (hv : v < 2 ^ w) (hcap : (w + 7) / 8 + 1 ≤ n) :
    ∃ s2, Serializer.add_unaligned_unsigned (v : Int) w
        (Serializer.skip_bits k (Serializer.new n)) = .ok s2 ∧
      (Deserializer.fetch_unaligned_unsigned w
        (Deserializer.skip_bits k (Deserializer.new [s2.buffer]))).1 = v := by
  obtain ⟨s2, heq, ho, hl, hm, hv', hbnd⟩ :=
    Serializer.add_unaligned_unsigned_spec v w
      (Serializer.skip_bits k (Serializer.new n)) hw
      (by
        show ∀ x ∈ List.replicate (n + 1) 0, x < 256
        intro x hx
        have := List.eq_of_mem_replicate hx
        omega)
      (by
        show bytesNat (List.replicate (n + 1) 0) < 2 ^ (0 + k)
        rw [bytesNat_replicate_zero]
        exact Nat.two_pow_pos _)
      (by
        show (0 + k) / 8 + (w + 7) / 8 < (List.replicate (n + 1) 0).length
        rw [List.length_replicate]
        omega)
  refine ⟨s2, heq, ?_⟩
  have hsk : (Serializer.skip_bits k (Serializer.new n)).bit_offset = 0 + k := rfl
  rw [hsk] at ho hv' hbnd
  have hv2 : bytesNat s2.buf = v * 2 ^ (0 + k) := by
    rw [hv']
    show bytesNat (List.replicate (n + 1) 0) + v % 2 ^ w * 2 ^ (0 + k) = _
    rw [bytesNat_replicate_zero, Nat.mod_eq_of_lt hv, Nat.zero_add]
  have hmB : ∀ b ∈ s2.buffer, b < 256 :=
    fun b hb => hm b (List.mem_of_mem_take hb)
  have hd1 : (Deserializer.skip_bits k (Deserializer.new [s2.buffer])).buf.buf
      = s2.buffer := new_single_buf _
  have hz1 : ∀ b ∈ (Deserializer.skip_bits k (Deserializer.new [s2.buffer])).buf.buf,
      b < 256 := by
    rw [hd1]
    exact hmB
  rw [(Deserializer.fetch_unaligned_unsigned_spec w _ hw hz1).1, hd1]
  have hBval : bytesNat s2.buffer = v * 2 ^ (0 + k) := by
    rw [Serializer.buffer, bytesNat_take _ (fun b hb => hm b hb), hv2]
    apply Nat.mod_eq_of_lt
    have h1 : v * 2 ^ (0 + k) < 2 ^ (0 + k + w) := by
      have hpow : (2 : Nat) ^ (0 + k + w) = 2 ^ w * 2 ^ (0 + k) := by
        rw [pow_add]
        ring
      rw [hpow]
      calc v * 2 ^ (0 + k) < 2 ^ w * 2 ^ (0 + k) :=
        (Nat.mul_lt_mul_right (Nat.two_pow_pos (0 + k))).mpr hv
      _ ≤ 2 ^ w * 2 ^ (0 + k) := le_refl _
    have h2 : (2 : Nat) ^ (0 + k + w) ≤ 256 ^ ((s2.bit_offset + 7) / 8) := by
      rw [show (256 : Nat) = 2 ^ 8 from by norm_num, ← pow_mul]
      exact Nat.pow_le_pow_right (by norm_num) (by rw [ho]; omega)
    omega
  rw [hBval]
  have hoff : (Deserializer.skip_bits k (Deserializer.new [s2.buffer])).bit_offset
      = 0 + k := rfl
  rw [hoff, Nat.mul_div_cancel _ (Nat.two_pow_pos (0 + k)), Nat.mod_eq_of_lt hv]

theorem roundtrip_signed_aux (n k w : Nat) (v : Int) (hw : 2 ≤ w) (hk : k < 8)
    (hlo : -(2 ^ (w - 1) : Int) ≤ v) (hhi : v < 2 ^ (w - 1))
    (hcap : (w + 7) / 8 + 1 ≤ n) :
    ∃ s2, Serializer.add_unaligned_signed v w
        (Serializer.skip_bits k (Serializer.new n)) = .ok s2 ∧
      (Deserializer.fetch_unaligned_signed w
        (Deserializer.skip_bits k (Deserializer.new [s2.buffer]))).1 = v := by
  have hp : (0 : Int) < 2 ^ (w - 1) := by positivity
  have hP : (2 : Int) ^ w = 2 ^ (w - 1) * 2 := by
    rw [← pow_succ]
    congr 1
    omega
  set u : Int := if v < 0 then 2 ^ w + v else v with hu
  have hunn : 0 ≤ u := by
    rw [hu]
    split <;> omega
  have hultI : u < (2 : Int) ^ w := by
    rw [hu]
    split <;> omega
  have hcastw : ((2 ^ w : Nat) : Int) = 2 ^ w := by push_cast; rfl
  have hcastw1 : ((2 ^ (w - 1) : Nat) : Int) = 2 ^ (w - 1) := by push_cast; rfl
  have hult : u.toNat < 2 ^ w := by omega
  obtain ⟨s2, heq, hfetch⟩ := roundtrip_unsigned_aux n k w u.toNat (by omega) hk hult hcap
  have htn : ((u.toNat : Nat) : Int) = u := Int.toNat_of_nonneg hunn
  refine ⟨s2, ?_, ?_⟩
  · rw [Serializer.add_unaligned_signed, ← hu, ← htn, heq]
  · rw [Deserializer.fetch_unaligned_signed]
    show (if 2 ^ (w - 1) ≤ (Deserializer.fetch_unaligned_unsigned w _).1
        then ((Deserializer.fetch_unaligned_unsigned w _).1 : Int) - 2 ^ w
        else ((Deserializer.fetch_unaligned_unsigned w _).1 : Int)) = v
    rw [hfetch]
    rcases le_or_lt (2 ^ (w - 1) : Nat) u.toNat with hc | hc
    · rw [if_pos hc]
      rw [hu] at htn hunn
      omega
    · rw [if_neg (not_le.mpr hc)]
      rw [hu] at htn hunn
      omega

theorem fresh_bytes_roundtrip (n k : Nat) (bs : List Nat) (hk : k < 8)
    (hbs : ∀ b ∈ bs, b < 256) (hcap : bs.length + 1 ≤ n) :
    bytesNat (Deserializer.fetch_unaligned_bytes bs.length
      (Deserializer.skip_bits k (Deserializer.new
        [(Serializer.add_unaligned_bytes bs
          (Serializer.skip_bits k (Serializer.new n))).buffer]))).1
      = bytesNat bs := by
  obtain ⟨ho, hl, hm, hv⟩ :=
    Serializer.add_unaligned_bytes_spec bs (Serializer.skip_bits k (Serializer.new n))
      hbs
      (by
        show ∀ x ∈ List.replicate (n + 1) 0, x < 256
        intro x hx
        have := List.eq_of_mem_replicate hx
        omega)
      (by
        show bytesNat (List.replicate (n + 1) 0) < 2 ^ (0 + k)
        rw [bytesNat_replicate_zero]
        exact Nat.two_pow_pos _)
      (by
        show (0 + k) / 8 + bs.length < (List.replicate (n + 1) 0).length
        rw [List.length_replicate]
        omega)
  set s2 := Serializer.add_unaligned_bytes bs (Serializer.skip_bits k (Serializer.new n))
    with hs2
  have hsk : (Serializer.skip_bits k (Serializer.new n)).bit_offset = 0 + k := rfl
  rw [hsk] at ho hv
  have hv2 : bytesNat s2.buf = bytesNat bs * 2 ^ (0 + k) := by
    rw [hv]
    show bytesNat (List.replicate (n + 1) 0) + bytesNat bs * 2 ^ (0 + k) = _
    rw [bytesNat_replicate_zero, Nat.zero_add]
  have hd1 : (Deserializer.skip_bits k (Deserializer.new [s2.buffer])).buf.buf
      = s2.buffer := new_single_buf _
  have hz1 : ∀ b ∈ (Deserializer.skip_bits k (Deserializer.new [s2.buffer])).buf.buf,
      b < 256 := by
    rw [hd1]
    exact fun b hb => hm b (List.mem_of_mem_take hb)
  obtain ⟨fl, fm, fv, fs⟩ := Deserializer.fetch_unaligned_bytes_spec bs.length
    (Deserializer.skip_bits k (Deserializer.new [s2.buffer])) hz1
  rw [fv, hd1]
  have hBlt : bytesNat bs < 256 ^ bs.length := bytesNat_lt _ hbs
  have hBval : bytesNat s2.buffer = bytesNat bs * 2 ^ (0 + k) := by
    rw [Serializer.buffer, bytesNat_take _ (fun b hb => hm b hb), hv2]
    apply Nat.mod_eq_of_lt
    have h1 : bytesNat bs * 2 ^ (0 + k) < 2 ^ (0 + k + 8 * bs.length) := by
      have hpow : (2 : Nat) ^ (0 + k + 8 * bs.length)
          = 2 ^ (8 * bs.length) * 2 ^ (0 + k) := by
        rw [pow_add]
        ring
      have h256 : (256 : Nat) ^ bs.length = 2 ^ (8 * bs.length) := by
        rw [show (256 : Nat) = 2 ^ 8 from by norm_num, ← pow_mul]
      rw [hpow]
      exact (Nat.mul_lt_mul_right (Nat.two_pow_pos (0 + k))).mpr (by omega)
    have h2 : (2 : Nat) ^ (0 + k + 8 * bs.length) ≤ 256 ^ ((s2.bit_offset + 7) / 8) := by
      rw [show (256 : Nat) = 2 ^ 8 from by norm_num, ← pow_mul]
      exact Nat.pow_le_pow_right (by norm_num) (by rw [ho]; omega)
    omega
  rw [hBval]
  have hoff : (Deserializer.skip_bits k (Deserializer.new [s2.buffer])).bit_offset
      = 0 + k := rfl
  rw [hoff, Nat.mul_div_cancel _ (Nat.two_pow_pos (0 + k))]
  apply Nat.mod_eq_of_lt
  calc bytesNat bs < 256 ^ bs.length := hBlt

/-- C1: Round-trip. For every primitive kind and width, every representable
value and every starting bit offset `k ∈ [0, 7]`, writing the value at
offset `k` and reading it back at offset `k` yields the value again:
* unsigned of any width `w ≥ 1`, values `v < 2^w`
  (`add_unaligned_unsigned` / `fetch_unaligned_unsigned`);
* signed of any width `w ≥ 2`, values in `[-2^(w-1), 2^(w-1))`
  (`add_unaligned_signed` / `fetch_unaligned_signed`);
* floats of 16/32/64 bits (`add_unaligned_f*` / `fetch_unaligned_f*`), for
  every value representable in the width — i.e. whose IEEE encode/decode
  round-trip is exact, which is the definition of the representable range.
The offset-`k` position is reached with `skip_bits k`; the serializer is
freshly allocated with enough capacity. -/
theorem C1_roundtrip :
    (∀ n k w v : Nat, 1 ≤ w → k < 8 → v < 2 ^ w → (w + 7) / 8 + 1 ≤ n →
      ∃ s2, Serializer.add_unaligned_unsigned (v : Int) w
          (Serializer.skip_bits k (Serializer.new n)) = .ok s2 ∧
        (Deserializer.fetch_unaligned_unsigned w
          (Deserializer.skip_bits k (Deserializer.new [s2.buffer]))).1 = v) ∧
    (∀ n k w : Nat, ∀ v : Int, 2 ≤ w → k < 8 →
      -(2 ^ (w - 1) : Int) ≤ v → v < 2 ^ (w - 1) → (w + 7) / 8 + 1 ≤ n →
      ∃ s2, Serializer.add_unaligned_signed v w
          (Serializer.skip_bits k (Serializer.new n)) = .ok s2 ∧
        (Deserializer.fetch_unaligned_signed w
          (Deserializer.skip_bits k (Deserializer.new [s2.buffer]))).1 = v) ∧
    (∀ n k : Nat, ∀ x : PyFloat, k < 8 → 3 ≤ n →
      decodePattern .e (bytesNat (float_to_bytes .e x)) = x →
      (Deserializer.fetch_unaligned_f16
        (Deserializer.skip_bits k (Deserializer.new
          [(Serializer.add_unaligned_f16 x
            (Serializer.skip_bits k (Serializer.new n))).buffer]))).1 = x) ∧
    (∀ n k : Nat, ∀ x : PyFloat, k < 8 → 5 ≤ n →
      decodePattern .f (bytesNat (float_to_bytes .f x)) = x →
      (Deserializer.fetch_unaligned_f32
        (Deserializer.skip_bits k (Deserializer.new
          [(Serializer.add_unaligned_f32 x
            (Serializer.skip_bits k (Serializer.new n))).buffer]))).1 = x) ∧
    (∀ n k : Nat, ∀ x : PyFloat, k < 8 → 9 ≤ n →
      decodePattern .d (bytesNat (float_to_bytes .d x)) = x →
      (Deserializer.fetch_unaligned_f64
        (Deserializer.skip_bits k (Deserializer.new
          [(Serializer.add_unaligned_f64 x
            (Serializer.skip_bits k (Serializer.new n))).buffer]))).1 = x) := by
  refine ⟨fun n k w v hw hk hv hcap => roundtrip_unsigned_aux n k w v hw hk hv hcap,
    fun n k w v hw hk hlo hhi hcap => roundtrip_signed_aux n k w v hw hk hlo hhi hcap,
    ?_, ?_, ?_⟩
  · intro n k x hk hn hrep
    have hlen : (float_to_bytes .e x).length = 2 := float_to_bytes_length .e x
    have hrt := fresh_bytes_roundtrip n k (float_to_bytes .e x) hk
      (float_to_bytes_lt .e x) (by omega)
    rw [hlen] at hrt
    rw [Deserializer.fetch_unaligned_f16]
    show decodePattern .e (bytesNat (Deserializer.fetch_unaligned_bytes 2 _).1) = x
    rw [show Serializer.add_unaligned_f16 x (Serializer.skip_bits k (Serializer.new n))
        = Serializer.add_unaligned_bytes (float_to_bytes .e x)
          (Serializer.skip_bits k (Serializer.new n)) from rfl] at *
    rw [hrt, hrep]
  · intro n k x hk hn hrep
    have hlen : (float_to_bytes .f x).length = 4 := float_to_bytes_length .f x
    have hrt := fresh_bytes_roundtrip n k (float_to_bytes .f x) hk
      (float_to_bytes_lt .f x) (by omega)
    rw [hlen] at hrt
    rw [Deserializer.fetch_unaligned_f32]
    show decodePattern .f (bytesNat (Deserializer.fetch_unaligned_bytes 4 _).1) = x
    rw [show Serializer.add_unaligned_f32 x (Serializer.skip_bits k (Serializer.new n))
        = Serializer.add_unaligned_bytes (float_to_bytes .f x)
          (Serializer.skip_bits k (Serializer.new n)) from rfl] at *
    rw [hrt, hrep]
  · intro n k x hk hn hrep
    have hlen : (float_to_bytes .d x).length = 8 := float_to_bytes_length .d x
    have hrt := fresh_bytes_roundtrip n k (float_to_bytes .d x) hk
      (float_to_bytes_lt .d x) (by omega)
    rw [hlen] at hrt
    rw [Deserializer.fetch_unaligned_f64]
    show decodePattern .d (bytesNat (Deserializer.fetch_unaligned_bytes 8 _).1) = x
    rw [show Serializer.add_unaligned_f64 x (Serializer.skip_bits k (Serializer.new n))
        = Serializer.add_unaligned_bytes (float_to_bytes .d x)
          (Serializer.skip_bits k (Serializer.new n)) from rfl] at *
    rw [hrt, hrep]

/-- Witness for C1: an 11-bit unsigned value at offset 3 (the repository's
own unaligned test value `0b111_0110_0101`), a signed `-2` of width 8 at
offset 5, and the float `0.0` at offset 1. -/
theorem C1_witness :
    (∃ s2, Serializer.add_unaligned_unsigned (1893 : Int) 11
        (Serializer.skip_bits 3 (Serializer.new 3)) = .ok s2 ∧
      (Deserializer.fetch_unaligned_unsigned 11
        (Deserializer.skip_bits 3 (Deserializer.new [s2.buffer]))).1 = 1893) ∧
    (∃ s2, Serializer.add_unaligned_signed (-2 : Int) 8
        (Serializer.skip_bits 5 (Serializer.new 3)) = .ok s2 ∧
      (Deserializer.fetch_unaligned_signed 8
        (Deserializer.skip_bits 5 (Deserializer.new [s2.buffer]))).1 = -2) ∧
    (Deserializer.fetch_unaligned_f16
      (Deserializer.skip_bits 1 (Deserializer.new
        [(Serializer.add_unaligned_f16 (.finite 0)
          (Serializer.skip_bits 1 (Serializer.new 3))).buffer]))).1 = .finite 0 :=
  ⟨C1_roundtrip.1 3 3 11 1893 (by decide) (by decide) (by decide) (by decide),
   C1_roundtrip.2.1 3 5 8 (-2) (by decide) (by decide) (by decide) (by decide)
     (by decide),
   C1_roundtrip.2.2.1 3 1 (.finite 0) (by decide) (by decide)
     (by
       rw [show float_to_bytes .e (.finite 0) = [0, 0] from rfl,
         show bytesNat [0, 0] = 0 from rfl,
         decodePattern_zero FloatFmt.e (by norm_num [FloatFmt.e])])⟩

end NunavutSupport
